import Mathlib

/-!
# M&E Dashboard behaviour layer (`static/js/main.js`)

A shallow embedding of the browser-side script and the properties of its
specification.  JavaScript strings are modelled by `String` (sequences of
Unicode scalar values; lone surrogates are outside the model), arrays by
`List`, objects by association lists in `Object.keys` order.
-/

namespace MEDashboard

/-! ## JavaScript values -/

/-- Primitive JavaScript values.  `num` carries an integer-valued Number in the
safe-integer range (whose string form is its decimal numeral); `nan` is `NaN`. -/
inductive Prim where
  | undefined
  | null
  | bool (b : Bool)
  | num (n : Int)
  | nan
  | str (s : String)
  deriving DecidableEq

namespace Prim

/-- The abstract operation `ToBoolean`. -/
def truthy : Prim → Bool
  | undefined => false
  | null => false
  | bool b => b
  | num n => n != 0
  | nan => false
  | str s => s != ""

/-- The abstract operation `ToString`, as applied by a template literal. -/
def toStr : Prim → String
  | undefined => "undefined"
  | null => "null"
  | bool true => "true"
  | bool false => "false"
  | num n => toString n
  | nan => "NaN"
  | str s => s

/-- The operator `a || b`. -/
def or (a b : Prim) : Prim := if a.truthy then a else b

end Prim

/-- The method `Array.prototype.join` on an array of strings. -/
def join (sep : String) : List String → String
  | [] => ""
  | [x] => x
  | x :: y :: rest => x ++ sep ++ join sep (y :: rest)

/-! ## Export helper -/

/-- A record: its own enumerable properties in `Object.keys` order. -/
abbrev Record := List (String × Prim)

/-- The call `Object.keys(row)`. -/
def keys (row : Record) : List String := row.map Prod.fst

/-- The property read `row[header]` (own properties only; `undefined` when absent). -/
def getProp (row : Record) (header : String) : Prim :=
  (row.lookup header).getD Prim.undefined

/-- The template literal `"${row[header] || ''}"` of `convertToCSV`. -/
def csvField (row : Record) (header : String) : String :=
  "\"" ++ ((getProp row header).or (Prim.str "")).toStr ++ "\""

/-- The function `convertToCSV(data)`; `none` stands for a null or undefined argument. -/
def convertToCSV : Option (List Record) → String
  | none => ""
  | some [] => ""
  | some (first :: rest) =>
    let headers := keys first
    join "\n" (join "," headers ::
      (first :: rest).map (fun row => join "," (headers.map (fun header => csvField row header))))

/-- The records `[{a:1,b:2},{a:3,b:""}]` of the specification's example. -/
def csvExample : List Record :=
  [[("a", Prim.num 1), ("b", Prim.num 2)], [("a", Prim.num 3), ("b", Prim.str "")]]

/-- A string wrapped in double quotes. -/
def Quoted (s : String) : Prop := ∃ body : String, s = "\"" ++ body ++ "\""

/-! ## Chart behaviour -/

/-- Values produced by `JSON.parse` (numbers restricted to integers). -/
inductive Json where
  | null
  | bool (b : Bool)
  | num (n : Int)
  | str (s : String)
  | arr (items : List Json)
  | obj (props : List (String × Json))

/-- The result of the property read `data.title`. -/
inductive TitleText where
  | undefined
  | value (v : Json)

namespace Json

/-- The operation `ToBoolean` on a parsed value. -/
def truthy : Json → Bool
  | null => false
  | bool b => b
  | num n => n != 0
  | str s => s != ""
  | arr _ => true
  | obj _ => true

/-- The property read `data.title`: a `TypeError` on `null`, `undefined` on a
primitive, an array or an object that has no such property. -/
def title : Json → Except String TitleText
  | null => .error "TypeError: Cannot read properties of null (reading 'title')"
  | obj props =>
    match props.lookup "title" with
    | some v => .ok (.value v)
    | none => .ok .undefined
  | _ => .ok .undefined

end Json

/-- The operand selection of `data.title || ''`. -/
def TitleText.orEmpty : TitleText → Json
  | .undefined => Json.str ""
  | .value v => if v.truthy then v else Json.str ""

/-- One axis definition of the `scales` object. -/
structure Axis where
  beginAtZero : Option Bool
  gridColor : String
  deriving DecidableEq

/-- The configuration object handed to the charting engine. -/
structure ChartConfig where
  type : String
  data : Json
  responsive : Bool
  maintainAspectRatio : Bool
  legendPosition : String
  titleDisplay : Bool
  titleText : Json
  scales : List (String × Axis)

/-- The configuration built by `createChart(canvas, type, data)`; the canvas
context and the `Chart` constructor belong to the browser and the charting
engine and are not modelled. -/
def createChart (type : String) (data : Json) : Except String ChartConfig := do
  let title ← data.title
  pure {
    type := type
    data := data
    responsive := true
    maintainAspectRatio := false
    legendPosition := "top"
    titleDisplay := true
    titleText := title.orEmpty
    scales :=
      if type ≠ "pie" ∧ type ≠ "doughnut" then
        [("y", { beginAtZero := some true, gridColor := "#E0E0E0" }),
         ("x", { beginAtZero := none, gridColor := "#E0E0E0" })]
      else [] }

/-- A chart-marked element: the attributes `data-chart` and `data-chart-data`
(`none` when the attribute is absent, `getAttribute` then yields `null`). -/
structure ChartElement where
  chartType : String
  chartData : Option String

section Charts

-- The built-in `JSON.parse` on a text: `none` when it throws a `SyntaxError`.
variable (parse : String → Option Json)

/-- The call `JSON.parse(element.getAttribute('data-chart-data'))`; a `null`
argument is converted to the text `null`, which parses to `null`. -/
def parseAttr (a : Option String) : Except String Json :=
  match a with
  | none => .ok Json.null
  | some text =>
    match parse text with
    | some v => .ok v
    | none => .error "SyntaxError: JSON.parse"

/-- The loop of `initializeCharts`: the charts created so far and, when an
exception escapes the `forEach` callback, the exception. -/
def initializeCharts : List ChartElement → List ChartConfig × Option String
  | [] => ([], none)
  | element :: rest =>
    match parseAttr parse element.chartData with
    | .error err => ([], some err)
    | .ok chartData =>
      match createChart element.chartType chartData with
      | .error err => ([], some err)
      | .ok config =>
        let r := initializeCharts rest
        (config :: r.1, r.2)

/-- What the page-ready handler has done, in order. -/
inductive Effect where
  | tooltips
  | formValidation
  | chart (config : ChartConfig)
  | dataTables
  | notifications

/-- The `DOMContentLoaded` handler: the effects performed and the exception
that ended it, if any.  The four other initialisers only register listeners,
insert the search inputs and start timers; they are recorded as one effect
each. -/
def onDOMContentLoaded (charts : List ChartElement) : List Effect × Option String :=
  let r := initializeCharts parse charts
  let done := [Effect.tooltips, Effect.formValidation] ++ r.1.map Effect.chart
  match r.2 with
  | some err => (done, some err)
  | none => (done ++ [Effect.dataTables, Effect.notifications], none)

end Charts

/-! ## Document model

Elements carry a reference `ref` standing for the identity of the node
object; in a document the references are pairwise distinct, and the results
that depend on it assume `Forest.refs` to have no duplicates.  A `Forest` is a
list of sibling nodes in first-child / next-sibling form, so that document
order is the order of the constructors.  The first tree of a forest is the
element a function is called on (the form, the table) or, for the tooltip, the
children of the body; a node that `validateForm` removes from the form stays in
the state as a further root, as the detached node object that it is. -/

/-- The own data of an element node: the identity `ref` of the node, the tag
name in lower case, the `id`, the tokens of `className`, the other attributes,
the `value` property (elements selected as fields are form controls) and the
declarations of the inline `style`. -/
structure Elem where
  ref : Nat
  tag : String
  id : String
  classes : List String
  attrs : List (String × String)
  value : String
  style : List (String × String)
  deriving DecidableEq

/-- A list of sibling nodes with their subtrees. -/
inductive Forest where
  | nil
  | text (content : String) (next : Forest)
  | elem (e : Elem) (kids : Forest) (next : Forest)
  deriving DecidableEq

namespace Elem

/-- The call `classList.add(c)`. -/
def addClass (c : String) (e : Elem) : Elem :=
  { e with classes := if c ∈ e.classes then e.classes else e.classes ++ [c] }

/-- The call `classList.remove(c)`. -/
def removeClass (c : String) (e : Elem) : Elem :=
  { e with classes := e.classes.filter (fun d => d != c) }

/-- The read `style[name]`: the empty string when the property is not set. -/
def styleOf (name : String) (e : Elem) : String :=
  (e.style.lookup name).getD ""

/-- The assignment `style[name] = v`; assigning the empty string removes the declaration. -/
def setStyle (name v : String) (e : Elem) : Elem :=
  { e with style :=
      if v = "" then e.style.filter (fun d => d.1 != name)
      else (name, v) :: e.style.filter (fun d => d.1 != name) }

end Elem

namespace Forest

/-- The elements of a forest in document order. -/
def pre : Forest → List Elem
  | nil => []
  | text _ nx => pre nx
  | elem e k nx => e :: (pre k ++ pre nx)

/-- The descendants, in document order, of the first root element of a forest:
the candidates of `root.querySelectorAll`. -/
def descendants : Forest → List Elem
  | nil => []
  | text _ nx => descendants nx
  | elem _ k _ => pre k

/-- The child elements at the top level of a forest. -/
def top : Forest → List Elem
  | nil => []
  | text _ nx => top nx
  | elem e _ nx => e :: top nx

/-- Concatenation of two sibling lists. -/
def append : Forest → Forest → Forest
  | nil, g => g
  | text s nx, g => text s (append nx g)
  | elem e k nx, g => elem e k (append nx g)

/-- The property `textContent` of a list of child nodes. -/
def textContent : Forest → String
  | nil => ""
  | text s nx => s ++ textContent nx
  | elem _ k nx => textContent k ++ textContent nx

/-- A reference that no element of the forest carries. -/
def fresh (f : Forest) : Nat := (f.pre.map Elem.ref).foldr max 0 + 1

/-- The first element in document order that satisfies `sel`: `querySelector`. -/
def querySelector (sel : Elem → Bool) (f : Forest) : Option Elem :=
  f.pre.find? sel

/-- The first element in document order that satisfies `sel`, with its child
list: the node that `querySelector(sel)` returns. -/
def findFirst (sel : Elem → Bool) : Forest → Option (Elem × Forest)
  | nil => none
  | text _ nx => findFirst sel nx
  | elem e k nx =>
    if sel e then some (e, k)
    else (findFirst sel k).orElse (fun _ => findFirst sel nx)

/-- Removal of the first element in document order that satisfies `sel`, with
its subtree: `querySelector(sel)` followed by `remove()` on its result. -/
def removeFirst (sel : Elem → Bool) : Forest → Forest
  | nil => nil
  | text s nx => text s (removeFirst sel nx)
  | elem e k nx =>
    if sel e then nx
    else if (pre k).any sel then elem e (removeFirst sel k) nx
    else elem e k (removeFirst sel nx)

/-- Update of the own data of the element with reference `r`. -/
def modifyElem (r : Nat) (g : Elem → Elem) : Forest → Forest
  | nil => nil
  | text s nx => text s (modifyElem r g nx)
  | elem e k nx => elem (if e.ref = r then g e else e) (modifyElem r g k) (modifyElem r g nx)

/-- Update of the child list of the element with reference `p`. -/
def atKids (p : Nat) (g : Forest → Forest) : Forest → Forest
  | nil => nil
  | text s nx => text s (atKids p g nx)
  | elem e k nx =>
    if e.ref = p then elem e (g k) nx
    else elem e (atKids p g k) (atKids p g nx)

/-- The child list of the element with reference `p`. -/
def kidsOf (p : Nat) : Forest → Option Forest
  | nil => none
  | text _ nx => kidsOf p nx
  | elem e k nx =>
    if e.ref = p then some k
    else (kidsOf p k).orElse (fun _ => kidsOf p nx)

/-- The element with reference `r`. -/
def elemOf (r : Nat) (f : Forest) : Option Elem :=
  f.pre.find? (fun e => e.ref = r)

/-- The property `parentNode` of the element with reference `r`: the reference
of its parent element, `none` when the element is not below an element of the
forest. -/
def parentOf (r : Nat) : Forest → Option Nat
  | nil => none
  | text _ nx => parentOf r nx
  | elem e k nx =>
    if (top k).any (fun c => c.ref = r) then some e.ref
    else (parentOf r k).orElse (fun _ => parentOf r nx)

end Forest

/-- A text node as only child, as left by the assignment `textContent = s`. -/
def textChild (s : String) : Forest :=
  if s = "" then Forest.nil else Forest.text s Forest.nil

/-! ## Tooltip behaviour -/

/-- What `showTooltip` reads from its event: the attribute `data-tooltip` of the
target (`none` when absent) and the two style values computed from the layout,
`rect.left + 'px'` and `(rect.top - tooltip.offsetHeight - 5) + 'px'`. -/
structure TooltipEvent where
  tooltipText : Option String
  left : String
  top : String

/-- The selector `#tooltip` of `getElementById('tooltip')`. -/
def isTooltip (e : Elem) : Bool := e.id == "tooltip"

/-- The function `showTooltip(event)` on the children of `document.body`. -/
def showTooltip (event : TooltipEvent) (body : Forest) : Forest :=
  let tooltip : Elem :=
    { ref := body.fresh
      tag := "div"
      id := "tooltip"
      classes := ["absolute", "z-50", "px-2", "py-1", "text-xs", "text-white",
        "bg-gray-800", "rounded", "shadow-lg"]
      attrs := []
      value := ""
      style := [] }
  let body := body.append (Forest.elem tooltip (textChild (event.tooltipText.getD "")) Forest.nil)
  let body := body.modifyElem tooltip.ref (Elem.setStyle "left" event.left)
  body.modifyElem tooltip.ref (Elem.setStyle "top" event.top)

/-- The function `hideTooltip()` on the children of `document.body`. -/
def hideTooltip (body : Forest) : Forest :=
  match body.querySelector isTooltip with
  | some _ => body.removeFirst isTooltip
  | none => body

/-- The number of elements with id `tooltip` in the document. -/
def tooltipCount (body : Forest) : Nat := (body.pre.filter isTooltip).length

/-! ## Validation behaviour -/

/-- The characters matched by `\s` and stripped by `String.prototype.trim`:
the ECMAScript white space and line terminator code points. -/
def isJsSpace (c : Char) : Bool :=
  let n := c.toNat
  (9 ≤ n && n ≤ 13) || n == 32 || n == 160 || n == 5760 || (8192 ≤ n && n ≤ 8202) ||
    n == 8232 || n == 8233 || n == 8239 || n == 8287 || n == 12288 || n == 65279

/-- The method `String.prototype.trim`. -/
def trim (s : String) : String :=
  ⟨((s.data.dropWhile isJsSpace).reverse.dropWhile isJsSpace).reverse⟩

/-- The character classes that the pattern of `isValidEmail` tells apart. -/
inductive CharClass where
  | space
  | at
  | dot
  | other
  deriving DecidableEq

/-- The class of a character. -/
def classify (c : Char) : CharClass :=
  if isJsSpace c then CharClass.space
  else if c = '@' then CharClass.at
  else if c = '.' then CharClass.dot
  else CharClass.other

/-- The class `[^\s@]`. -/
def notSpaceAt : RegularExpression CharClass :=
  RegularExpression.char CharClass.dot + RegularExpression.char CharClass.other

/-- The repetition `[^\s@]+`. -/
def notSpaceAtPlus : RegularExpression CharClass :=
  notSpaceAt * RegularExpression.star notSpaceAt

/-- The pattern `/^[^\s@]+@[^\s@]+\.[^\s@]+$/`, read over character classes. -/
def emailRegex : RegularExpression CharClass :=
  notSpaceAtPlus * (RegularExpression.char CharClass.at * (notSpaceAtPlus *
    (RegularExpression.char CharClass.dot * notSpaceAtPlus)))

/-- The function `isValidEmail(email)`. -/
def isValidEmail (email : String) : Bool :=
  emailRegex.rmatch (email.data.map classify)

/-- The selector `[required]`. -/
def isRequired (e : Elem) : Bool := e.attrs.any (fun a => a.1 == "required")

/-- The selector `input[type="email"]` (tag names and the value of `type` are
kept in lower case). -/
def isEmailInput (e : Elem) : Bool :=
  e.tag == "input" && e.attrs.lookup "type" == some "email"

/-- The selector `.field-error`. -/
def isFieldError (e : Elem) : Bool := e.classes.contains "field-error"

/-- The statements `existingError = parent.querySelector('.field-error')` and
`if (existingError) existingError.remove()`: the removed node becomes a root. -/
def removeExistingError (parent : Nat) (form : Forest) : Forest :=
  match (form.kidsOf parent).bind (Forest.findFirst isFieldError) with
  | none => form
  | some existingError =>
    (form.atKids parent (Forest.removeFirst isFieldError)).append
      (Forest.elem existingError.1 existingError.2 Forest.nil)

/-- The function `clearFieldError(field)`.  The result is `none` when
`field.parentNode` is `null` (an earlier call removed the field itself), where
the script throws a `TypeError`. -/
def clearFieldError (field : Nat) (form : Forest) : Option Forest :=
  let form := form.modifyElem field (Elem.removeClass "border-red-500")
  match form.parentOf field with
  | none => none
  | some parent => some (removeExistingError parent form)

/-- The element `errorDiv` that `showFieldError` creates, with the reference
given to the new node. -/
def errorDiv (ref : Nat) : Elem :=
  { ref := ref
    tag := "div"
    id := ""
    classes := ["text-red-500", "text-sm", "mt-1", "field-error"]
    attrs := []
    value := ""
    style := [] }

/-- The function `showFieldError(field, message)`. -/
def showFieldError (field : Nat) (message : String) (form : Forest) : Option Forest :=
  match clearFieldError field form with
  | none => none
  | some form =>
    let form := form.modifyElem field (Elem.addClass "border-red-500")
    match form.parentOf field with
    | none => none
    | some parent =>
      some (form.atKids parent
        (fun kids =>
          kids.append (Forest.elem (errorDiv form.fresh) (textChild message) Forest.nil)))

/-- The callback of the loop over the required fields. -/
def requiredStep (st : Bool × Forest) (field : Elem) : Option (Bool × Forest) :=
  if trim field.value = "" then
    (showFieldError field.ref "This field is required" st.2).map (fun form => (false, form))
  else
    (clearFieldError field.ref st.2).map (fun form => (st.1, form))

/-- The callback of the loop over the email fields. -/
def emailStep (st : Bool × Forest) (field : Elem) : Option (Bool × Forest) :=
  if field.value ≠ "" ∧ isValidEmail field.value = false then
    (showFieldError field.ref "Please enter a valid email address" st.2).map
      (fun form => (false, form))
  else
    some st

/-- The function `validateForm(form)`: the returned flag and the state as the
call leaves it, `none` when the call throws.  The form element is the first
root of the state; the further roots are nodes removed by earlier calls. -/
def validateForm (form : Forest) : Option (Bool × Forest) :=
  let requiredFields := form.descendants.filter isRequired
  match requiredFields.foldlM requiredStep (true, form) with
  | none => none
  | some st =>
    let emailFields := st.2.descendants.filter isEmailInput
    emailFields.foldlM emailStep st

/-- The state after `n` consecutive calls of `validateForm`. -/
def validateTimes : Nat → Forest → Option Forest
  | 0, form => some form
  | n + 1, form =>
    match validateForm form with
    | none => none
    | some st => validateTimes n st.2

/-- The user's edit of a field: the assignment of its `value`. -/
def setValue (field : Nat) (v : String) (form : Forest) : Forest :=
  form.modifyElem field (fun e => { e with value := v })

/-! ## Table behaviour -/

/-- The method `String.prototype.includes`. -/
def includes (text term : String) : Bool := decide (term.data <:+: text.data)

/-- The elements of a sibling list that match `tbody tr`, where `inTbody` tells
whether an ancestor of the list is a `tbody` element. -/
def rowsIn (inTbody : Bool) : Forest → List Nat
  | Forest.nil => []
  | Forest.text _ nx => rowsIn inTbody nx
  | Forest.elem e k nx =>
    (if inTbody && e.tag == "tr" then [e.ref] else []) ++
      (rowsIn (inTbody || e.tag == "tbody") k ++ rowsIn inTbody nx)

/-- The call `table.querySelectorAll('tbody tr')` on the one-tree forest of the
table.  The result holds the descendants of the table that match the selector,
and the selector is matched against the whole document, ancestors of the table
included: `nested` tells whether the table itself lies inside a `tbody` element
of an enclosing table. -/
def bodyRows (nested : Bool) : Forest → List Nat
  | Forest.nil => []
  | Forest.text _ nx => bodyRows nested nx
  | Forest.elem e k nx => rowsIn (nested || e.tag == "tbody") k ++ bodyRows nested nx

/-- The rows of a sibling list that lie in no `tbody` element of the list:
header and footer rows. -/
def rowsOutsideBody : Forest → List Nat
  | Forest.nil => []
  | Forest.text _ nx => rowsOutsideBody nx
  | Forest.elem e k nx =>
    (if e.tag == "tr" then [e.ref] else []) ++
      ((if e.tag == "tbody" then [] else rowsOutsideBody k) ++ rowsOutsideBody nx)

section Table

-- The built-in `String.prototype.toLowerCase`.
variable (lower : String → String)

/-- The callback of the loop of `filterTable`. -/
def filterRow (searchTerm : String) (table : Forest) (row : Nat) : Forest :=
  match table.kidsOf row with
  | none => table
  | some kids =>
    let text := lower kids.textContent
    let isMatch := includes text (lower searchTerm)
    table.modifyElem row (Elem.setStyle "display" (if isMatch then "" else "none"))

/-- The function `filterTable(table, searchTerm)`. -/
def filterTable (nested : Bool) (table : Forest) (searchTerm : String) : Forest :=
  (bodyRows nested table).foldl (filterRow lower searchTerm) table

/-- The inline `display` value of the element with reference `row`. -/
def displayOf (row : Nat) (table : Forest) : Option String :=
  (table.elemOf row).map (Elem.styleOf "display")

/-- The lower-cased text of the element with reference `row`. -/
def rowText (row : Nat) (table : Forest) : Option String :=
  (table.kidsOf row).map (fun kids => lower kids.textContent)

end Table

/-- The letters of the fragment on which `toLowerCase` is modelled: the basic
Latin and the basic Greek letters. -/
def isLetter (c : Char) : Bool :=
  let n := c.toNat
  (65 ≤ n && n ≤ 90) || (97 ≤ n && n ≤ 122) || (913 ≤ n && n ≤ 937 && n != 930) ||
    (945 ≤ n && n ≤ 969)

/-- The simple lower-case mapping of a character of the fragment. -/
def lowerChar (c : Char) : Char :=
  let n := c.toNat
  if (65 ≤ n && n ≤ 90) || (913 ≤ n && n ≤ 937 && n != 930) then Char.ofNat (n + 32) else c

/-- The Unicode default lower-casing with the context rule `Final_Sigma`:
a capital sigma that follows a letter and is not followed by one becomes the
final form. -/
def lowerFrom (afterLetter : Bool) : List Char → List Char
  | [] => []
  | c :: rest =>
    if c = 'Σ' then
      (if afterLetter && !(rest.head?.map isLetter).getD false then 'ς' else 'σ') ::
        lowerFrom true rest
    else lowerChar c :: lowerFrom (isLetter c) rest

/-- The built-in `String.prototype.toLowerCase` on strings made of basic Latin
and basic Greek letters, digits and spaces: the Unicode default case conversion
with the language-independent conditional mapping of `SpecialCasing.txt`. -/
def toLowerCase (s : String) : String := ⟨lowerFrom false s.data⟩

/-! ## Auxiliary notions used in the statements -/

/-- The name of an effect of the page-ready handler. -/
def Effect.name : Effect → String
  | .tooltips => "tooltips"
  | .formValidation => "formValidation"
  | .chart _ => "chart"
  | .dataTables => "dataTables"
  | .notifications => "notifications"

/-- The chart configuration of one element, when neither the parse nor
`createChart` throws. -/
def chartOf (parse : String → Option Json) (element : ChartElement) : Option ChartConfig :=
  match parseAttr parse element.chartData with
  | .error _ => none
  | .ok chartData => (createChart element.chartType chartData).toOption

/-- A parser that accepts the text `{}` only; it stands for `JSON.parse` on the
two payloads `{}` and `{oops`. -/
def parseBraces (text : String) : Option Json :=
  if text = "\x7b\x7d" then some (Json.obj []) else none

/-- A bar chart element with the payload `{}`. -/
def goodChart : ChartElement := ⟨"bar", some "\x7b\x7d"⟩

/-- A bar chart element with the payload `{oops`. -/
def badChart : ChartElement := ⟨"bar", some "\x7boops"⟩

/-- A form whose only field is an email input, not required, holding `bad`. -/
def emailOnlyForm : Forest :=
  Forest.elem
    { ref := 0, tag := "form", id := "", classes := [], attrs := [("data-validate", "")],
      value := "", style := [] }
    (Forest.elem
      { ref := 1, tag := "input", id := "", classes := [], attrs := [("type", "email")],
        value := "bad", style := [] }
      Forest.nil Forest.nil)
    Forest.nil

/-- The class `border-red-500` that marks a field invalid. -/
def isMarkedInvalid (e : Elem) : Bool := e.classes.contains "border-red-500"

/-- The references of the elements of a forest, in document order. -/
def Forest.refs (f : Forest) : List Nat := f.pre.map Elem.ref

/-- An element without attributes, classes or inline style. -/
def plain (ref : Nat) (tag : String) : Elem :=
  { ref := ref, tag := tag, id := "", classes := [], attrs := [], value := "", style := [] }

/-- A table with the header row `Name` (reference 2) and the two body rows
`ασα` (reference 5) and `Bob` (reference 7). -/
def namesTable : Forest :=
  Forest.elem (plain 0 "table")
    (Forest.elem (plain 1 "thead")
      (Forest.elem (plain 2 "tr")
        (Forest.elem (plain 3 "th") (Forest.text "Name" Forest.nil) Forest.nil) Forest.nil)
      (Forest.elem (plain 4 "tbody")
        (Forest.elem (plain 5 "tr")
          (Forest.elem (plain 6 "td") (Forest.text "ασα" Forest.nil) Forest.nil)
          (Forest.elem (plain 7 "tr")
            (Forest.elem (plain 8 "td") (Forest.text "Bob" Forest.nil) Forest.nil) Forest.nil))
        Forest.nil))
    Forest.nil

namespace Forest

/-- The references of the elements that lie below an element with reference `p`. -/
def under (p : Nat) : Forest → List Nat
  | nil => []
  | text _ nx => under p nx
  | elem e k nx => (if e.ref = p then k.refs else under p k) ++ under p nx

/-- The last child node of the list is an inline error node. -/
def lastIsError : Forest → Bool
  | nil => false
  | text _ nil => false
  | text _ nx => lastIsError nx
  | elem e _ nil => e.classes.contains "field-error"
  | elem _ _ nx => lastIsError nx

end Forest

/-- The field `g` is kept apart from the element `p`: it does not lie below
`p`, and its parent is neither `p` nor below `p` nor above `p`. -/
def Separated (form : Forest) (p g : Nat) : Prop :=
  g ∉ form.under p ∧
    ∀ q, form.parentOf g = some q → q ≠ p ∧ q ∉ form.under p ∧ p ∉ form.under q

/-- An input element with the given attributes and value. -/
def input (ref : Nat) (attrs : List (String × String)) (value : String) : Elem :=
  { ref := ref, tag := "input", id := "", classes := [], attrs := attrs, value := value,
    style := [] }

/-- A form whose two required fields, both empty, are children of the form
element itself. -/
def twoFieldForm : Forest :=
  Forest.elem (plain 0 "form")
    (Forest.elem (input 1 [("required", "")] "") Forest.nil
      (Forest.elem (input 2 [("required", "")] "") Forest.nil Forest.nil))
    Forest.nil

/-- A form with one container per field: an empty required field followed by
its hint in the first, a filled required field in the second. -/
def groupedForm : Forest :=
  Forest.elem (plain 0 "form")
    (Forest.elem (plain 1 "div")
      (Forest.elem (input 2 [("required", "")] "  ") Forest.nil
        (Forest.elem (plain 3 "span") (Forest.text "Your name" Forest.nil) Forest.nil))
      (Forest.elem (plain 4 "div")
        (Forest.elem (input 5 [("required", ""), ("type", "email")] "a@b.co") Forest.nil
          Forest.nil)
        Forest.nil))
    Forest.nil

/-- The selectors of the fields that `validateForm` visits. -/
def isValidated (e : Elem) : Bool := isRequired e || isEmailInput e

/-- Every inline error node of the forest is a childless node as created by
`showFieldError`: its reference is not in `old` and it is not a validated field. -/
def ErrLeaves (old : List Nat) : Forest → Prop
  | Forest.nil => True
  | Forest.text _ nx => ErrLeaves old nx
  | Forest.elem e k nx =>
    (isFieldError e = true → k.pre = [] ∧ e.ref ∉ old ∧ isValidated e = false) ∧
      ErrLeaves old k ∧ ErrLeaves old nx

/-- The selected elements of a forest, by reference and value. -/
def selected (sel : Elem → Bool) (f : Forest) : List (Nat × String) :=
  (f.pre.filter sel).map (fun e => (e.ref, e.value))

/-- The selected descendants of the first root of a forest, by reference and
value: what a loop of `validateForm` reads from its field list. -/
def selectedBelow (sel : Elem → Bool) (f : Forest) : List (Nat × String) :=
  (f.descendants.filter sel).map (fun e => (e.ref, e.value))

/-- A selector that only matches validated fields and does not read the class list. -/
structure FieldSelector (sel : Elem → Bool) : Prop where
  validated : ∀ e, sel e = true → isValidated e = true
  classes : ∀ (e : Elem) (c : List String), sel { e with classes := c } = sel e

/-- An update of a forest that only inserts and removes inline error nodes and
changes class lists: on the elements with a reference in `old` it keeps
presence, parents, the relation of lying below, and the selected fields. -/
structure Benign (old : List Nat) (h : Forest → Forest) : Prop where
  errLeaves : ∀ k, ErrLeaves old k → ErrLeaves old (h k)
  refs : ∀ k, ErrLeaves old k → ∀ x ∈ old, (x ∈ (h k).refs ↔ x ∈ k.refs)
  top : ∀ k, ErrLeaves old k → ∀ x ∈ old,
    ((h k).top.any fun c => c.ref = x) = (k.top.any fun c => c.ref = x)
  parent : ∀ k, ErrLeaves old k → ∀ x ∈ old, (h k).parentOf x = k.parentOf x
  under : ∀ k, ErrLeaves old k → ∀ a, ∀ x ∈ old, x ∈ (h k).under a → x ∈ k.under a
  selected : ∀ k, ErrLeaves old k → ∀ sel, FieldSelector sel → selected sel (h k) = selected sel k

/-- The state of a form reached from `form` by calls of `validateForm`. -/
structure Reached (form f : Forest) : Prop where
  errLeaves : ErrLeaves form.refs f
  refs : ∀ x ∈ form.refs, x ∈ f.refs
  parent : ∀ x ∈ form.refs, f.parentOf x = form.parentOf x
  under : ∀ a, ∀ x ∈ form.refs, x ∈ f.under a → x ∈ form.under a
  required : selectedBelow isRequired f = selectedBelow isRequired form
  email : selectedBelow isEmailInput f = selectedBelow isEmailInput form

/-- The child list holds no inline error node. -/
def ErrorFree (k : Forest) : Prop := k.pre.filter isFieldError = []

/-- The child list holds exactly one inline error node, as its last node. -/
def OneErrorLast (k : Forest) : Prop :=
  ∃ (k0 : Forest) (e : Elem) (kk : Forest), k = k0.append (Forest.elem e kk Forest.nil) ∧
    isFieldError e = true ∧ ErrorFree k0 ∧ ErrorFree kk

/-- An update of an element that changes its class list only and keeps the
class `field-error` as it is. -/
def ClassChange (c : Elem → Elem) : Prop :=
  ∀ e, ∃ cls : List String, c e = { e with classes := cls } ∧
    cls.contains "field-error" = e.classes.contains "field-error"

/-- The child list of `p` holds at most one inline error node, as its last node. -/
def KidsWeak (p : Nat) (f : Forest) : Prop :=
  ∃ k, f.kidsOf p = some k ∧ (ErrorFree k ∨ OneErrorLast k)

/-- The child list of `p` holds exactly one inline error node, as its last node. -/
def KidsStrong (p : Nat) (f : Forest) : Prop :=
  ∃ k, f.kidsOf p = some k ∧ OneErrorLast k

/-- A visited field is either the field `field` itself or a field of the form
that is kept apart from the parent `p` of `field`. -/
def GoodField (form : Forest) (field : Elem) (p : Nat) (x : Elem) : Prop :=
  (x.ref = field.ref ∧ x.value = field.value) ∨
    (x.ref ≠ field.ref ∧ x.ref ∈ form.refs ∧ Separated form p x.ref ∧
      ∃ q, form.parentOf x.ref = some q)

/-! ## Export helper: properties -/

/-- C1 (as amended): for a non-empty list of records the result is the header
names joined by commas, unquoted, followed by one line per record whose fields
are wrapped in double quotes and separated by commas, all joined by newlines;
the records `[{a:1,b:2},{a:3,b:""}]` give `a,b`, `"1","2"`, `"3",""`. -/
theorem convertToCSV_layout (first : Record) (rest : List Record) :
    ∃ rows : List (List String),
      rows.length = (first :: rest).length ∧
      (∀ r ∈ rows, r.length = (keys first).length ∧ ∀ c ∈ r, Quoted c) ∧
      convertToCSV (some (first :: rest)) =
        join "\n" (join "," (keys first) :: rows.map (join ",")) ∧
      convertToCSV (some csvExample) = "a,b\n\"1\",\"2\"\n\"3\",\"\"" := by
  refine ⟨(first :: rest).map (fun row => (keys first).map (fun header => csvField row header)),
    by simp, ?_, ?_, by decide⟩
  · intro r hr
    obtain ⟨row, -, rfl⟩ := List.mem_map.1 hr
    refine ⟨by simp, ?_⟩
    intro c hc
    obtain ⟨h, -, rfl⟩ := List.mem_map.1 hc
    exact ⟨_, rfl⟩
  · simp [convertToCSV, List.map_map, Function.comp_def]

/-- Counterexample to C1 as stated: the result for the records
`[{a:1,b:2},{a:3,b:""}]` is not the text with a quoted header row. -/
theorem convertToCSV_header_unquoted :
    convertToCSV (some csvExample) ≠ "\"a\",\"b\"\n\"1\",\"2\"\n\"3\",\"\"" := by decide

/-- C8 (as amended): when the payload of a chart element fails to parse, the
page-ready handler ends with that exception; it has initialised the tooltips,
the form validation and the charts of the elements before the failing one, and
neither the later charts nor the data tables nor the notifications. -/
theorem onDOMContentLoaded_stops_at_bad_payload (parse : String → Option Json)
    (before after : List ChartElement) (bad : ChartElement) (err : String)
    (hbefore : ∀ el ∈ before, (chartOf parse el).isSome)
    (hbad : parseAttr parse bad.chartData = Except.error err) :
    onDOMContentLoaded parse (before ++ bad :: after) =
      ([Effect.tooltips, Effect.formValidation] ++
        (before.filterMap (chartOf parse)).map Effect.chart, some err) := by
  have key : initializeCharts parse (before ++ bad :: after) =
      (before.filterMap (chartOf parse), some err) := by
    induction before with
    | nil => simp [initializeCharts, hbad]
    | cons el before ih =>
      have h1 := hbefore el (List.mem_cons_self _ _)
      have ih' := ih (fun x hx => hbefore x (List.mem_cons_of_mem _ hx))
      simp only [chartOf] at h1
      simp only [List.cons_append, initializeCharts, List.filterMap_cons, chartOf]
      cases hp : parseAttr parse el.chartData with
      | error e => simp [hp] at h1
      | ok d =>
        simp only [hp] at h1 ⊢
        cases hc : createChart el.chartType d with
        | error e => simp [hc, Except.toOption] at h1
        | ok cfg => simp [ih', Except.toOption]
  simp [onDOMContentLoaded, key]

/-- Witness for C8 (as amended): a page whose second chart payload is the
text `{oops`. -/
theorem onDOMContentLoaded_stops_at_bad_payload_witness :
    onDOMContentLoaded parseBraces ([goodChart] ++ badChart :: [goodChart]) =
      ([Effect.tooltips, Effect.formValidation] ++
        ([goodChart].filterMap (chartOf parseBraces)).map Effect.chart,
        some "SyntaxError: JSON.parse") :=
  onDOMContentLoaded_stops_at_bad_payload parseBraces [goodChart] [goodChart] badChart _
    (by decide) (by rfl)

/-- Counterexample to C8 as stated: with a first chart payload that fails to
parse, the handler ends with the exception and has run neither the second
chart nor the data tables nor the notifications. -/
theorem onDOMContentLoaded_bad_payload_aborts :
    (onDOMContentLoaded parseBraces [badChart, goodChart]).2 = some "SyntaxError: JSON.parse" ∧
    (onDOMContentLoaded parseBraces [badChart, goodChart]).1.map Effect.name =
      ["tooltips", "formValidation"] := by
  decide

/-- C9: for every chart kind and every payload other than `null`, the
configuration has the `y` and `x` axes (with the grid colour) exactly when the
kind is neither `pie` nor `doughnut`, and an empty `scales` object exactly for
those two kinds; the title text is the payload's title when it is a string and
the empty string when the payload has no title. -/
theorem createChart_scales_and_title (type : String) (data : Json) (hdata : data ≠ Json.null) :
    ∃ config, createChart type data = Except.ok config ∧
      (config.scales.map Prod.fst = ["y", "x"] ↔ (type ≠ "pie" ∧ type ≠ "doughnut")) ∧
      (config.scales = [] ↔ (type = "pie" ∨ type = "doughnut")) ∧
      (∀ a ∈ config.scales, a.2.gridColor = "#E0E0E0") ∧
      (∀ props s, data = Json.obj props → props.lookup "title" = some (Json.str s) →
        config.titleText = Json.str s) ∧
      ((∀ props, data = Json.obj props → props.lookup "title" = none) →
        config.titleText = Json.str "") := by
  have hscales : ∀ config : ChartConfig,
      config.scales = (if type ≠ "pie" ∧ type ≠ "doughnut" then
        [("y", ({ beginAtZero := some true, gridColor := "#E0E0E0" } : Axis)),
         ("x", { beginAtZero := none, gridColor := "#E0E0E0" })] else []) →
      (config.scales.map Prod.fst = ["y", "x"] ↔ (type ≠ "pie" ∧ type ≠ "doughnut")) ∧
      (config.scales = [] ↔ (type = "pie" ∨ type = "doughnut")) ∧
      (∀ a ∈ config.scales, a.2.gridColor = "#E0E0E0") := by
    intro config hc
    by_cases ht : type ≠ "pie" ∧ type ≠ "doughnut"
    · rw [if_pos ht] at hc
      refine ⟨by simp [hc, ht], ?_, ?_⟩
      · simp only [hc]
        constructor
        · intro h; cases h
        · rintro (h | h)
          · exact absurd h ht.1
          · exact absurd h ht.2
      · intro a ha
        rw [hc] at ha
        simp only [List.mem_cons, List.mem_singleton, List.not_mem_nil, or_false] at ha
        rcases ha with rfl | rfl <;> rfl
    · rw [if_neg ht] at hc
      refine ⟨by simp [hc, ht], ?_, by simp [hc]⟩
      simp only [hc, true_iff]
      by_contra hn
      exact ht ⟨fun h => hn (Or.inl h), fun h => hn (Or.inr h)⟩
  cases data with
  | null => exact absurd rfl hdata
  | obj props =>
    cases hl : props.lookup "title" with
    | none =>
      refine ⟨_, by simp [createChart, Json.title, hl, bind, Except.bind, pure, Except.pure]; rfl, ?_⟩
      refine ⟨(hscales _ rfl).1, (hscales _ rfl).2.1, (hscales _ rfl).2.2, ?_, ?_⟩
      · intro props' s he hs
        cases he
        rw [hl] at hs
        cases hs
      · intro _
        rfl
    | some v =>
      refine ⟨_, by simp [createChart, Json.title, hl, bind, Except.bind, pure, Except.pure]; rfl, ?_⟩
      refine ⟨(hscales _ rfl).1, (hscales _ rfl).2.1, (hscales _ rfl).2.2, ?_, ?_⟩
      · intro props' s he hs
        cases he
        rw [hl] at hs
        cases hs
        simp only [TitleText.orEmpty, Json.truthy]
        by_cases h0 : s = ""
        · simp [h0]
        · simp [h0]
      · intro hnone
        have := hnone props rfl
        rw [hl] at this
        cases this
  | bool b =>
    refine ⟨_, rfl, (hscales _ rfl).1, (hscales _ rfl).2.1, (hscales _ rfl).2.2, ?_, fun _ => rfl⟩
    intro props s he
    cases he
  | num n =>
    refine ⟨_, rfl, (hscales _ rfl).1, (hscales _ rfl).2.1, (hscales _ rfl).2.2, ?_, fun _ => rfl⟩
    intro props s he
    cases he
  | str n =>
    refine ⟨_, rfl, (hscales _ rfl).1, (hscales _ rfl).2.1, (hscales _ rfl).2.2, ?_, fun _ => rfl⟩
    intro props s he
    cases he
  | arr n =>
    refine ⟨_, rfl, (hscales _ rfl).1, (hscales _ rfl).2.1, (hscales _ rfl).2.2, ?_, fun _ => rfl⟩
    intro props s he
    cases he

/-- Witness for C9: a pie chart whose payload carries the title `T`. -/
theorem createChart_scales_and_title_witness :
    Json.obj [("title", Json.str "T")] ≠ Json.null ∧
    ∃ config, createChart "pie" (Json.obj [("title", Json.str "T")]) = Except.ok config ∧
      (config.scales.map Prod.fst = ["y", "x"] ↔ ("pie" ≠ "pie" ∧ "pie" ≠ "doughnut")) ∧
      (config.scales = [] ↔ ("pie" = "pie" ∨ "pie" = "doughnut")) ∧
      (∀ a ∈ config.scales, a.2.gridColor = "#E0E0E0") ∧
      (∀ props s, Json.obj [("title", Json.str "T")] = Json.obj props →
        props.lookup "title" = some (Json.str s) → config.titleText = Json.str s) ∧
      ((∀ props, Json.obj [("title", Json.str "T")] = Json.obj props →
        props.lookup "title" = none) → config.titleText = Json.str "") :=
  ⟨fun h => Json.noConfusion h,
    createChart_scales_and_title "pie" (Json.obj [("title", Json.str "T")])
      (fun h => Json.noConfusion h)⟩

/-! ## Tooltip behaviour: properties -/

theorem pre_append (f g : Forest) : (f.append g).pre = f.pre ++ g.pre := by
  induction f with
  | nil => rfl
  | text s nx ih => simpa [Forest.append, Forest.pre] using ih
  | elem e k nx _ ih => simp [Forest.append, Forest.pre, ih]

theorem pre_modifyElem (r : Nat) (g : Elem → Elem) (f : Forest) :
    (f.modifyElem r g).pre = f.pre.map (fun e => if e.ref = r then g e else e) := by
  induction f with
  | nil => rfl
  | text s nx ih => simpa [Forest.modifyElem, Forest.pre] using ih
  | elem e k nx ihk ih => simp [Forest.modifyElem, Forest.pre, ihk, ih]

theorem pre_textChild (s : String) : (textChild s).pre = [] := by
  unfold textChild
  split <;> rfl

/-- C7 (the code's behaviour): two calls of `showTooltip` in succession add
two elements with id `tooltip` to any document, so they never leave exactly
one. -/
theorem showTooltip_twice_adds_two (first second : TooltipEvent) (body : Forest) :
    tooltipCount (showTooltip second (showTooltip first body)) = tooltipCount body + 2 := by
  have key : ∀ (ev : TooltipEvent) (b : Forest),
      tooltipCount (showTooltip ev b) = tooltipCount b + 1 := by
    intro ev b
    have hid : ∀ (r : Nat) (g : Elem → Elem), (∀ e, (g e).id = e.id) → ∀ l : List Elem,
        ((l.map (fun e => if e.ref = r then g e else e)).filter isTooltip).length =
          (l.filter isTooltip).length := by
      intro r g hg l
      induction l with
      | nil => rfl
      | cons e l ih =>
        have he : isTooltip (if e.ref = r then g e else e) = isTooltip e := by
          split
          · simp [isTooltip, hg]
          · rfl
        simp only [List.map_cons, List.filter_cons, he]
        split <;> simp [ih]
    have hs : ∀ (n v : String) (e : Elem), (e.setStyle n v).id = e.id := fun _ _ _ => rfl
    simp only [tooltipCount, showTooltip]
    rw [pre_modifyElem, hid _ _ (hs _ _), pre_modifyElem, hid _ _ (hs _ _), pre_append]
    simp [Forest.pre, pre_textChild, List.filter_append, isTooltip]
  rw [key, key]

/-! ## Validation behaviour: the email pattern -/

/-- C2 (the code's behaviour): the loop over the email fields leaves the form
untouched when every field is empty or well formed, so it never clears an
error; on a form whose only field is an email input that is not required, a
first call with the value `bad` returns false and shows the error, and after
the value is corrected to `a@b.co` the next call returns true but leaves the
error node and the invalid marking in place. -/
theorem validateForm_keeps_stale_email_error :
    (∀ (fields : List Elem) (st : Bool × Forest),
      (∀ x ∈ fields, x.value = "" ∨ isValidEmail x.value = true) →
        fields.foldlM emailStep st = some st) ∧
    (validateForm emailOnlyForm).map Prod.fst = some false ∧
    isValidEmail "a@b.co" = true ∧
    ((validateForm emailOnlyForm).bind (fun shown =>
      (validateForm (setValue 1 "a@b.co" shown.2)).map (fun st =>
        (st.1, (st.2.descendants.filter isFieldError).length,
          (st.2.descendants.filter isMarkedInvalid).length))))
      = some (true, 1, 1) := by
  refine ⟨?_, by decide, by decide, by decide⟩
  intro fields st hall
  induction fields with
  | nil => rfl
  | cons x fields ih =>
    have hx : emailStep st x = some st := by
      unfold emailStep
      rcases hall x (List.mem_cons_self _ _) with h | h
      · simp [h]
      · simp [h]
    simp only [List.foldlM_cons, bind, Option.bind, hx]
    exact ih (fun y hy => hall y (List.mem_cons_of_mem _ hy))

/-! ## Table behaviour: properties -/

theorem elemOf_modifyElem (r r' : Nat) (g : Elem → Elem) (hg : ∀ e, (g e).ref = e.ref)
    (f : Forest) :
    (f.modifyElem r' g).elemOf r = (f.elemOf r).map (fun e => if e.ref = r' then g e else e) := by
  unfold Forest.elemOf
  rw [pre_modifyElem, List.find?_map]
  have hfun : ((fun e => decide (e.ref = r)) ∘ fun e => if e.ref = r' then g e else e) =
      fun e : Elem => decide (e.ref = r) := by
    funext e
    simp only [Function.comp]
    split <;> simp [hg]
  rw [hfun]

theorem textContent_modifyElem (r : Nat) (g : Elem → Elem) (f : Forest) :
    (f.modifyElem r g).textContent = f.textContent := by
  induction f with
  | nil => rfl
  | text s nx ih => simp [Forest.modifyElem, Forest.textContent, ih]
  | elem e k nx ihk ih => simp [Forest.modifyElem, Forest.textContent, ihk, ih]

theorem kidsOf_modifyElem (p r : Nat) (g : Elem → Elem) (hg : ∀ e, (g e).ref = e.ref)
    (f : Forest) :
    (f.modifyElem r g).kidsOf p = (f.kidsOf p).map (Forest.modifyElem r g) := by
  induction f with
  | nil => rfl
  | text s nx ih => simpa [Forest.modifyElem, Forest.kidsOf] using ih
  | elem e k nx ihk ih =>
    have he : (if e.ref = r then g e else e).ref = e.ref := by
      split
      · exact hg e
      · rfl
    simp only [Forest.modifyElem, Forest.kidsOf, he]
    split
    · rfl
    · rw [ihk, ih]
      cases Forest.kidsOf p k <;> rfl

theorem kidsOf_isSome (p : Nat) (f : Forest) :
    (f.kidsOf p).isSome = (f.elemOf p).isSome := by
  unfold Forest.elemOf
  induction f with
  | nil => rfl
  | text s nx ih => simpa [Forest.kidsOf, Forest.pre] using ih
  | elem e k nx ihk ih =>
    simp only [Forest.kidsOf, Forest.pre]
    by_cases h : e.ref = p
    · simp [h]
    · simp only [h, if_false, List.find?_cons, decide_False, List.find?_append]
      cases hk : Forest.kidsOf p k with
      | some v =>
        rw [hk] at ihk
        cases hf : List.find? (fun e => decide (e.ref = p)) k.pre with
        | some w => rfl
        | none => rw [hf] at ihk; cases ihk
      | none =>
        rw [hk] at ihk
        cases hf : List.find? (fun e => decide (e.ref = p)) k.pre with
        | some w => rw [hf] at ihk; cases ihk
        | none => simpa using ih

theorem lookup_filter_ne (name : String) (l : List (String × String)) :
    (l.filter (fun d => d.1 != name)).lookup name = none := by
  induction l with
  | nil => rfl
  | cons d l ih =>
    by_cases h : d.1 = name
    · simp [List.filter_cons, h, ih]
    · have h' : (name == d.1) = false := by simpa using fun h2 => h h2.symm
      simp [List.filter_cons, h, List.lookup, h', ih]

theorem styleOf_setStyle (name v : String) (e : Elem) : (e.setStyle name v).styleOf name = v := by
  unfold Elem.setStyle Elem.styleOf
  by_cases h : v = ""
  · simp [h, lookup_filter_ne]
  · simp [h, List.lookup]

theorem setStyle_ref (name v : String) (e : Elem) : (e.setStyle name v).ref = e.ref := rfl

theorem rowText_filterRow (lower : String → String) (term : String) (table : Forest)
    (r0 r : Nat) :
    rowText lower r (filterRow lower term table r0) = rowText lower r table := by
  unfold filterRow
  cases h : table.kidsOf r0 with
  | none => rfl
  | some kids =>
    simp only [rowText]
    rw [kidsOf_modifyElem _ _ _ (setStyle_ref _ _)]
    cases table.kidsOf r with
    | none => rfl
    | some k => simp [textContent_modifyElem]

theorem elemOf_filterRow_ne (lower : String → String) (term : String) (table : Forest)
    (r0 r : Nat) (hne : r ≠ r0) :
    (filterRow lower term table r0).elemOf r = table.elemOf r := by
  unfold filterRow
  cases h : table.kidsOf r0 with
  | none => rfl
  | some kids =>
    simp only
    rw [elemOf_modifyElem _ _ _ (setStyle_ref _ _)]
    cases he : table.elemOf r with
    | none => rfl
    | some e =>
      have hr : e.ref = r := by
        have := List.find?_some he
        simpa using this
      simp [hr, hne]

theorem displayOf_filterRow (lower : String → String) (term : String) (table : Forest)
    (r0 : Nat) :
    displayOf r0 (filterRow lower term table r0) =
      (rowText lower r0 table).map
        (fun text => if includes text (lower term) then "" else "none") := by
  unfold filterRow rowText displayOf
  have hs := kidsOf_isSome r0 table
  cases h : table.kidsOf r0 with
  | none =>
    rw [h] at hs
    cases he : table.elemOf r0 with
    | none => rfl
    | some e => rw [he] at hs; cases hs
  | some kids =>
    rw [h] at hs
    simp only
    rw [elemOf_modifyElem _ _ _ (setStyle_ref _ _)]
    cases he : table.elemOf r0 with
    | none => rw [he] at hs; cases hs
    | some e =>
      have hr : e.ref = r0 := by
        have := List.find?_some he
        simpa using this
      simp [hr, styleOf_setStyle]

theorem rowText_foldl (lower : String → String) (term : String) (rows : List Nat)
    (table : Forest) (r : Nat) :
    rowText lower r (rows.foldl (filterRow lower term) table) = rowText lower r table := by
  induction rows generalizing table with
  | nil => rfl
  | cons r0 rows ih => rw [List.foldl_cons, ih, rowText_filterRow]

theorem elemOf_foldl_not_mem (lower : String → String) (term : String) (rows : List Nat)
    (table : Forest) (r : Nat) (hr : r ∉ rows) :
    (rows.foldl (filterRow lower term) table).elemOf r = table.elemOf r := by
  induction rows generalizing table with
  | nil => rfl
  | cons r0 rows ih =>
    rw [List.foldl_cons, ih _ (fun h => hr (List.mem_cons_of_mem _ h)),
      elemOf_filterRow_ne _ _ _ _ _ (fun h => hr (by rw [h]; exact List.mem_cons_self _ _))]

theorem displayOf_foldl_mem (lower : String → String) (term : String) (rows : List Nat)
    (table : Forest) (r : Nat) (hr : r ∈ rows) :
    displayOf r (rows.foldl (filterRow lower term) table) =
      (rowText lower r table).map
        (fun text => if includes text (lower term) then "" else "none") := by
  induction rows generalizing table with
  | nil => cases hr
  | cons r0 rows ih =>
    rw [List.foldl_cons]
    by_cases hmem : r ∈ rows
    · rw [ih _ hmem, rowText_filterRow]
    · have h0 : r = r0 := by
        rcases List.mem_cons.1 hr with h | h
        · exact h
        · exact absurd h hmem
      subst h0
      unfold displayOf
      rw [elemOf_foldl_not_mem _ _ _ _ _ hmem]
      exact displayOf_filterRow lower term table r

theorem rowsIn_mem_kidsOf (b : Bool) (f : Forest) (r : Nat) (hr : r ∈ rowsIn b f) :
    (f.kidsOf r).isSome = true := by
  induction f generalizing b with
  | nil => cases hr
  | text s nx ih => exact ih b hr
  | elem e k nx ihk ih =>
    simp only [rowsIn, List.mem_append] at hr
    simp only [Forest.kidsOf]
    by_cases he : e.ref = r
    · simp [he]
    · simp only [he, if_false]
      rcases hr with h | h | h
      · split at h
        · simp only [List.mem_singleton] at h
          exact absurd h.symm he
        · cases h
      · have := ihk _ h
        cases hk : Forest.kidsOf r k with
        | none => rw [hk] at this; cases this
        | some v => rfl
      · have := ih _ h
        cases hk : Forest.kidsOf r k with
        | none => simpa using this
        | some v => rfl

theorem bodyRows_mem_kidsOf (nested : Bool) (f : Forest) (r : Nat) (hr : r ∈ bodyRows nested f) :
    (f.kidsOf r).isSome = true := by
  induction f with
  | nil => cases hr
  | text s nx ih => exact ih hr
  | elem e k nx _ ih =>
    simp only [bodyRows, List.mem_append] at hr
    simp only [Forest.kidsOf]
    by_cases he : e.ref = r
    · simp [he]
    · simp only [he, if_false]
      rcases hr with h | h
      · have := rowsIn_mem_kidsOf _ _ _ h
        cases hk : Forest.kidsOf r k with
        | none => rw [hk] at this; cases this
        | some v => rfl
      · have := ih h
        cases hk : Forest.kidsOf r k with
        | none => simpa using this
        | some v => rfl

theorem count_rowsIn_le (b : Bool) (f : Forest) (r : Nat) :
    (rowsIn b f).count r ≤ f.refs.count r := by
  induction f generalizing b with
  | nil => simp [rowsIn]
  | text s nx ih => exact ih b
  | elem e k nx ihk ih =>
    have h1 := ihk (b || e.tag == "tbody")
    have h2 := ih b
    simp only [Forest.refs] at h1 h2
    simp only [rowsIn, Forest.refs, Forest.pre, List.map_cons, List.map_append, List.count_append,
      List.count_cons]
    split
    · simp only [List.count_cons, List.count_nil]
      omega
    · simp only [List.count_nil]
      omega

theorem count_rowsIn_rowsOutsideBody (f : Forest) (r : Nat) :
    (rowsIn false f).count r + (rowsOutsideBody f).count r ≤ f.refs.count r := by
  induction f with
  | nil => simp [rowsIn, rowsOutsideBody]
  | text s nx ih => exact ih
  | elem e k nx ihk ih =>
    simp only [Forest.refs] at ihk ih
    simp only [rowsIn, rowsOutsideBody, Forest.refs, Forest.pre, List.map_cons, List.map_append,
      List.count_append, List.count_cons, Bool.false_and, Bool.false_or, Bool.false_eq_true,
      if_false, List.count_nil]
    by_cases ht : (e.tag == "tbody") = true
    · have hk := count_rowsIn_le true k r
      simp only [Forest.refs] at hk
      have htr : (e.tag == "tr") = false := by
        have h1 : e.tag = "tbody" := by simpa using ht
        rw [h1]
        decide
      simp only [ht, htr, if_true, List.count_nil, Bool.false_eq_true, if_false]
      omega
    · have ht' : (e.tag == "tbody") = false := by simpa using ht
      simp only [ht', Bool.false_eq_true, if_false]
      split
      · simp only [List.count_cons, List.count_nil]
        omega
      · simp only [List.count_nil]
        omega

theorem count_bodyRows_rowsOutsideBody (f : Forest) (r : Nat) :
    (bodyRows false f).count r + (rowsOutsideBody f).count r ≤ f.refs.count r := by
  induction f with
  | nil => simp [bodyRows, rowsOutsideBody]
  | text s nx ih => exact ih
  | elem e k nx _ ih =>
    simp only [Forest.refs] at ih
    simp only [bodyRows, rowsOutsideBody, Forest.refs, Forest.pre, List.map_cons, List.map_append,
      List.count_append, List.count_cons, Bool.false_or]
    by_cases ht : (e.tag == "tbody") = true
    · have hk := count_rowsIn_le true k r
      simp only [Forest.refs] at hk
      have htr : (e.tag == "tr") = false := by
        have h1 : e.tag = "tbody" := by simpa using ht
        rw [h1]
        decide
      simp only [ht, htr, if_true, List.count_nil, Bool.false_eq_true, if_false]
      omega
    · have ht' : (e.tag == "tbody") = false := by simpa using ht
      have hk := count_rowsIn_rowsOutsideBody k r
      simp only [Forest.refs] at hk
      simp only [ht', Bool.false_eq_true, if_false]
      split
      · simp only [List.count_cons, List.count_nil]
        omega
      · simp only [List.count_nil]
        omega

/-- C6 (the code's behaviour): after `filterTable` every row selected by
`tbody tr` is visible exactly when its lower-cased text contains the lower-cased
term and hidden otherwise, and no other element is changed; for a table that is
not nested in a `tbody` the rows outside every `tbody` keep their state, but for
a table nested in the `tbody` of an enclosing table the header row is selected
too and gets hidden. -/
theorem filterTable_display (lower : String → String) (nested : Bool) (table : Forest)
    (term : String) :
    (∀ row ∈ bodyRows nested table, ∃ text, rowText lower row table = some text ∧
      displayOf row (filterTable lower nested table term) =
        some (if includes text (lower term) then "" else "none")) ∧
    (∀ row, row ∉ bodyRows nested table →
      (filterTable lower nested table term).elemOf row = table.elemOf row) ∧
    (nested = false → table.refs.Nodup → ∀ row ∈ rowsOutsideBody table,
      (filterTable lower nested table term).elemOf row = table.elemOf row) ∧
    (2 ∈ rowsOutsideBody namesTable ∧ displayOf 2 namesTable = some "" ∧
      displayOf 2 (filterTable toLowerCase true namesTable "bob") = some "none") := by
  refine ⟨?_, ?_, ?_, by decide⟩
  · intro row hrow
    have hk := bodyRows_mem_kidsOf nested table row hrow
    cases hkids : table.kidsOf row with
    | none => rw [hkids] at hk; cases hk
    | some kids =>
      refine ⟨lower kids.textContent, by simp [rowText, hkids], ?_⟩
      unfold filterTable
      rw [displayOf_foldl_mem lower term _ table row hrow]
      simp [rowText, hkids]
  · intro row hrow
    exact elemOf_foldl_not_mem lower term _ table row hrow
  · intro hn hnodup row hrow
    subst hn
    apply elemOf_foldl_not_mem lower term _ table row
    intro hbody
    have h1 := count_bodyRows_rowsOutsideBody table row
    have h2 : table.refs.count row ≤ 1 := List.nodup_iff_count_le_one.1 hnodup row
    have h3 : 0 < (bodyRows false table).count row := List.count_pos_iff.2 hbody
    have h4 : 0 < (rowsOutsideBody table).count row := List.count_pos_iff.2 hrow
    omega

theorem rowsIn_modifyElem (b : Bool) (r : Nat) (g : Elem → Elem)
    (hg : ∀ e, (g e).ref = e.ref ∧ (g e).tag = e.tag) (f : Forest) :
    rowsIn b (f.modifyElem r g) = rowsIn b f := by
  induction f generalizing b with
  | nil => rfl
  | text s nx ih => exact ih b
  | elem e k nx ihk ih =>
    have he : (if e.ref = r then g e else e).ref = e.ref ∧
        (if e.ref = r then g e else e).tag = e.tag := by
      split
      · exact hg e
      · exact ⟨rfl, rfl⟩
    simp only [Forest.modifyElem, rowsIn, he.1, he.2, ihk, ih]

theorem bodyRows_modifyElem (nested : Bool) (r : Nat) (g : Elem → Elem)
    (hg : ∀ e, (g e).ref = e.ref ∧ (g e).tag = e.tag) (f : Forest) :
    bodyRows nested (f.modifyElem r g) = bodyRows nested f := by
  induction f with
  | nil => rfl
  | text s nx ih => exact ih
  | elem e k nx _ ih =>
    have he : (if e.ref = r then g e else e).tag = e.tag := by
      split
      · exact (hg e).2
      · rfl
    simp only [Forest.modifyElem, bodyRows, he, ih, rowsIn_modifyElem _ _ _ hg]

theorem bodyRows_foldl (lower : String → String) (term : String) (nested : Bool)
    (rows : List Nat) (table : Forest) :
    bodyRows nested (rows.foldl (filterRow lower term) table) = bodyRows nested table := by
  induction rows generalizing table with
  | nil => rfl
  | cons r0 rows ih =>
    rw [List.foldl_cons, ih]
    unfold filterRow
    cases table.kidsOf r0 with
    | none => rfl
    | some kids =>
      exact bodyRows_modifyElem nested r0 (Elem.setStyle "display" _) (fun e => ⟨rfl, rfl⟩) table

/-- C5 (as amended): when the lower-cased term `s` occurs in the lower-cased
widened term `s + t`, every body row that `filterTable(table, s)` hides is also
hidden by `filterTable(table, s + t)`, applied to the table as given or as the
first call left it; the display of the row after a call is a function of the
row's lower-cased text and the term. -/
theorem filterTable_monotone (lower : String → String) (nested : Bool) (table : Forest)
    (s t : String) (row : Nat)
    (hext : (lower s).data <:+: (lower (s ++ t)).data)
    (hrow : row ∈ bodyRows nested table)
    (hhidden : displayOf row (filterTable lower nested table s) = some "none") :
    displayOf row (filterTable lower nested table (s ++ t)) = some "none" ∧
    displayOf row (filterTable lower nested (filterTable lower nested table s) (s ++ t)) =
      some "none" ∧
    ∃ text, rowText lower row table = some text ∧ ∀ term,
      displayOf row (filterTable lower nested table term) =
        some (if includes text (lower term) then "" else "none") := by
  have hk := bodyRows_mem_kidsOf nested table row hrow
  cases hkids : table.kidsOf row with
  | none => rw [hkids] at hk; cases hk
  | some kids =>
    have htext : rowText lower row table = some (lower kids.textContent) := by
      simp [rowText, hkids]
    have hs : includes (lower kids.textContent) (lower s) = false := by
      unfold filterTable at hhidden
      rw [displayOf_foldl_mem lower s _ table row hrow, htext] at hhidden
      simp only [Option.map_some', Option.some.injEq] at hhidden
      by_contra hc
      have hc' : includes (lower kids.textContent) (lower s) = true := by simpa using hc
      rw [hc'] at hhidden
      simp at hhidden
    have hst : includes (lower kids.textContent) (lower (s ++ t)) = false := by
      unfold includes at hs ⊢
      simp only [decide_eq_false_iff_not] at hs ⊢
      exact fun h => hs (hext.trans h)
    refine ⟨?_, ?_, lower kids.textContent, htext, ?_⟩
    · unfold filterTable
      rw [displayOf_foldl_mem lower (s ++ t) _ table row hrow, htext]
      simp [hst]
    · have hrow' : row ∈ bodyRows nested (filterTable lower nested table s) := by
        unfold filterTable
        rw [bodyRows_foldl]
        exact hrow
      have htext' : rowText lower row (filterTable lower nested table s) =
          some (lower kids.textContent) := by
        unfold filterTable
        rw [rowText_foldl, htext]
      show displayOf row (List.foldl (filterRow lower (s ++ t))
        (filterTable lower nested table s) (bodyRows nested (filterTable lower nested table s)))
          = some "none"
      rw [displayOf_foldl_mem lower (s ++ t) _ _ row hrow', htext']
      simp [hst]
    · intro term
      unfold filterTable
      rw [displayOf_foldl_mem lower term _ table row hrow, htext]
      rfl

/-- Witness for C5 (as amended): the row `ασα` of the sample table is hidden by
the term `bo` and by the widened term `bob`. -/
theorem filterTable_monotone_witness :
    displayOf 5 (filterTable toLowerCase false namesTable ("bo" ++ "b")) = some "none" ∧
    displayOf 5 (filterTable toLowerCase false (filterTable toLowerCase false namesTable "bo")
      ("bo" ++ "b")) = some "none" ∧
    ∃ text, rowText toLowerCase 5 namesTable = some text ∧ ∀ term,
      displayOf 5 (filterTable toLowerCase false namesTable term) =
        some (if includes text (toLowerCase term) then "" else "none") :=
  filterTable_monotone toLowerCase false namesTable "bo" "b" 5 (by decide) (by decide) (by decide)

/-- Counterexample to C5 as stated: the body row with text `ασα` is hidden by
the term `ΑΣ`, whose lower case is `ας`, and shown again by the widened term
`ΑΣΑ`, whose lower case is `ασα`. -/
theorem filterTable_widening_reveals :
    5 ∈ bodyRows false namesTable ∧
    toLowerCase "ΑΣ" = "ας" ∧ toLowerCase ("ΑΣ" ++ "Α") = "ασα" ∧
    displayOf 5 (filterTable toLowerCase false namesTable "ΑΣ") = some "none" ∧
    displayOf 5 (filterTable toLowerCase false namesTable ("ΑΣ" ++ "Α")) = some "" := by
  decide

/-! ## Validation behaviour: the error node of a field -/

theorem refs_elem (e : Elem) (k nx : Forest) :
    (Forest.elem e k nx).refs = e.ref :: (k.refs ++ nx.refs) := by
  simp [Forest.refs, Forest.pre]

theorem refs_text (s : String) (nx : Forest) : (Forest.text s nx).refs = nx.refs := rfl

theorem refs_nil : Forest.nil.refs = [] := rfl

theorem refs_append (f g : Forest) : (f.append g).refs = f.refs ++ g.refs := by
  simp [Forest.refs, pre_append]

theorem refs_modifyElem (r : Nat) (c : Elem → Elem) (hc : ∀ e, (c e).ref = e.ref) (f : Forest) :
    (f.modifyElem r c).refs = f.refs := by
  unfold Forest.refs
  rw [pre_modifyElem, List.map_map]
  apply List.map_congr_left
  intro e _
  simp only [Function.comp]
  split
  · exact hc e
  · rfl

theorem mem_refs_removeFirst (sel : Elem → Bool) (f : Forest) (x : Nat)
    (h : x ∈ (f.removeFirst sel).refs) : x ∈ f.refs := by
  induction f with
  | nil => exact h
  | text s nx ih => exact ih h
  | elem e k nx ihk ih =>
    simp only [Forest.removeFirst] at h
    rw [refs_elem]
    split at h
    · simp [h]
    · split at h
      · rw [refs_elem] at h
        simp only [List.mem_cons, List.mem_append] at h ⊢
        rcases h with h | h | h
        · exact Or.inl h
        · exact Or.inr (Or.inl (ihk h))
        · exact Or.inr (Or.inr h)
      · rw [refs_elem] at h
        simp only [List.mem_cons, List.mem_append] at h ⊢
        rcases h with h | h | h
        · exact Or.inl h
        · exact Or.inr (Or.inl h)
        · exact Or.inr (Or.inr (ih h))

theorem le_foldr_max (l : List Nat) (x : Nat) (h : x ∈ l) : x ≤ l.foldr max 0 := by
  induction l with
  | nil => cases h
  | cons a l ih =>
    simp only [List.foldr_cons]
    rcases List.mem_cons.1 h with rfl | h
    · exact le_max_left _ _
    · exact le_trans (ih h) (le_max_right _ _)

theorem fresh_not_mem (f : Forest) : f.fresh ∉ f.refs := by
  intro h
  have := le_foldr_max _ _ h
  unfold Forest.fresh Forest.refs at *
  omega

theorem kidsOf_atKids_self (p : Nat) (h : Forest → Forest) (f : Forest) :
    (f.atKids p h).kidsOf p = (f.kidsOf p).map h := by
  induction f with
  | nil => rfl
  | text s nx ih => simpa [Forest.atKids, Forest.kidsOf] using ih
  | elem e k nx ihk ih =>
    simp only [Forest.atKids, Forest.kidsOf]
    by_cases he : e.ref = p
    · simp [he, Forest.kidsOf]
    · simp only [he, if_false, Forest.kidsOf, ihk, ih]
      cases Forest.kidsOf p k <;> rfl

theorem atKids_of_not_mem (p : Nat) (h : Forest → Forest) (f : Forest) (hp : p ∉ f.refs) :
    f.atKids p h = f := by
  induction f with
  | nil => rfl
  | text s nx ih =>
    simp only [Forest.atKids]
    rw [ih hp]
  | elem e k nx ihk ih =>
    rw [refs_elem] at hp
    simp only [List.mem_cons, List.mem_append, not_or] at hp
    simp only [Forest.atKids]
    rw [if_neg (fun h => hp.1 h.symm), ihk hp.2.1, ih hp.2.2]

theorem modifyElem_of_not_mem (r : Nat) (c : Elem → Elem) (f : Forest) (hr : r ∉ f.refs) :
    f.modifyElem r c = f := by
  induction f with
  | nil => rfl
  | text s nx ih =>
    simp only [Forest.modifyElem]
    rw [ih hr]
  | elem e k nx ihk ih =>
    rw [refs_elem] at hr
    simp only [List.mem_cons, List.mem_append, not_or] at hr
    simp only [Forest.modifyElem]
    rw [if_neg (fun h => hr.1 h.symm), ihk hr.2.1, ih hr.2.2]

theorem kidsOf_of_not_mem (p : Nat) (f : Forest) (hp : p ∉ f.refs) : f.kidsOf p = none := by
  induction f with
  | nil => rfl
  | text s nx ih => exact ih hp
  | elem e k nx ihk ih =>
    rw [refs_elem] at hp
    simp only [List.mem_cons, List.mem_append, not_or] at hp
    simp only [Forest.kidsOf]
    rw [if_neg (fun h => hp.1 h.symm), ihk hp.2.1, ih hp.2.2]
    rfl

theorem kidsOf_modifyElem_frame (p r : Nat) (c : Elem → Elem) (hc : ∀ e, (c e).ref = e.ref)
    (f : Forest) (hr : r ∉ f.under p) :
    (f.modifyElem r c).kidsOf p = f.kidsOf p := by
  induction f with
  | nil => rfl
  | text s nx ih => exact ih hr
  | elem e k nx ihk ih =>
    have he : (if e.ref = r then c e else e).ref = e.ref := by
      split
      · exact hc e
      · rfl
    simp only [Forest.under, List.mem_append, not_or] at hr
    simp only [Forest.modifyElem, Forest.kidsOf, he]
    by_cases hp : e.ref = p
    · simp only [hp, if_true] at hr ⊢
      rw [modifyElem_of_not_mem _ _ _ hr.1]
    · simp only [hp, if_false] at hr ⊢
      rw [ihk hr.1, ih hr.2]

theorem kidsOf_atKids_frame (p q : Nat) (h : Forest → Forest)
    (hh : ∀ k : Forest, p ∉ k.refs → p ∉ (h k).refs) (f : Forest)
    (hne : q ≠ p) (hq : q ∉ f.under p) (hp : p ∉ f.under q) :
    (f.atKids q h).kidsOf p = f.kidsOf p := by
  induction f with
  | nil => rfl
  | text s nx ih => exact ih hq hp
  | elem e k nx ihk ih =>
    simp only [Forest.under, List.mem_append, not_or] at hq hp
    simp only [Forest.atKids]
    by_cases heq : e.ref = q
    · have hep : e.ref ≠ p := fun h => hne (heq ▸ h)
      simp only [heq, if_true] at hp ⊢
      simp only [Forest.kidsOf, heq, hne, if_false]
      rw [kidsOf_of_not_mem _ _ (hh k hp.1), kidsOf_of_not_mem _ _ hp.1]
    · simp only [heq, if_false] at hp ⊢
      by_cases hep : e.ref = p
      · simp only [hep, if_true] at hq
        simp only [Forest.kidsOf, hep, if_true]
        rw [atKids_of_not_mem _ _ _ hq.1]
      · simp only [hep, if_false] at hq
        simp only [Forest.kidsOf, hep, if_false]
        rw [ihk hq.1 hp.1, ih hq.2 hp.2]

theorem classChange_removeClass : ClassChange (Elem.removeClass "border-red-500") := by
  intro e
  refine ⟨e.classes.filter (fun d => d != "border-red-500"), rfl, ?_⟩
  induction e.classes with
  | nil => rfl
  | cons a l ih =>
    by_cases ha : a = "border-red-500"
    · subst ha
      simp only [List.filter_cons, bne_self_eq_false, Bool.false_eq_true, if_false, ih]
      simp only [List.contains_cons]
      have : ("field-error" == "border-red-500") = false := by decide
      rw [this, Bool.false_or]
    · have : (a != "border-red-500") = true := by simpa using ha
      simp only [List.filter_cons, this, if_true, List.contains_cons, ih]

theorem classChange_addClass : ClassChange (Elem.addClass "border-red-500") := by
  intro e
  refine ⟨if "border-red-500" ∈ e.classes then e.classes else e.classes ++ ["border-red-500"],
    rfl, ?_⟩
  split
  · rfl
  · have : ("field-error" == "border-red-500") = false := by decide
    simp [this]

theorem classChange_ref {c : Elem → Elem} (hc : ClassChange c) (e : Elem) : (c e).ref = e.ref := by
  obtain ⟨cls, h, -⟩ := hc e
  rw [h]

theorem classChange_value {c : Elem → Elem} (hc : ClassChange c) (e : Elem) :
    (c e).value = e.value := by
  obtain ⟨cls, h, -⟩ := hc e
  rw [h]

theorem classChange_isFieldError {c : Elem → Elem} (hc : ClassChange c) (e : Elem) :
    isFieldError (c e) = isFieldError e := by
  obtain ⟨cls, h, h2⟩ := hc e
  rw [h]
  exact h2

theorem classChange_isValidated {c : Elem → Elem} (hc : ClassChange c) (e : Elem) :
    isValidated (c e) = isValidated e := by
  obtain ⟨cls, h, -⟩ := hc e
  rw [h]
  rfl

theorem classChange_sel {c : Elem → Elem} (hc : ClassChange c) {sel : Elem → Bool}
    (hsel : FieldSelector sel) (e : Elem) : sel (c e) = sel e := by
  obtain ⟨cls, h, -⟩ := hc e
  rw [h]
  exact hsel.classes e cls

theorem top_modifyElem (r : Nat) (c : Elem → Elem) (f : Forest) :
    (f.modifyElem r c).top = f.top.map (fun e => if e.ref = r then c e else e) := by
  induction f with
  | nil => rfl
  | text s nx ih => simpa [Forest.modifyElem, Forest.top] using ih
  | elem e k nx _ ih => simp [Forest.modifyElem, Forest.top, ih]

theorem descendants_modifyElem (r : Nat) (c : Elem → Elem) (f : Forest) :
    (f.modifyElem r c).descendants =
      f.descendants.map (fun e => if e.ref = r then c e else e) := by
  induction f with
  | nil => rfl
  | text s nx ih => simpa [Forest.modifyElem, Forest.descendants] using ih
  | elem e k nx _ _ => simp [Forest.modifyElem, Forest.descendants, pre_modifyElem]

theorem topAny_modifyElem (r x : Nat) (c : Elem → Elem) (hc : ∀ e, (c e).ref = e.ref)
    (f : Forest) :
    ((f.modifyElem r c).top.any fun d => d.ref = x) = (f.top.any fun d => d.ref = x) := by
  rw [top_modifyElem, List.any_map]
  congr 1
  funext e
  simp only [Function.comp]
  split
  · rw [hc e]
  · rfl

theorem parentOf_modifyElem (r x : Nat) (c : Elem → Elem) (hc : ∀ e, (c e).ref = e.ref)
    (f : Forest) : (f.modifyElem r c).parentOf x = f.parentOf x := by
  induction f with
  | nil => rfl
  | text s nx ih => exact ih
  | elem e k nx ihk ih =>
    have he : (if e.ref = r then c e else e).ref = e.ref := by
      split
      · exact hc e
      · rfl
    simp only [Forest.modifyElem, Forest.parentOf, topAny_modifyElem _ _ _ hc, he, ihk, ih]

theorem under_modifyElem (r a : Nat) (c : Elem → Elem) (hc : ∀ e, (c e).ref = e.ref)
    (f : Forest) : (f.modifyElem r c).under a = f.under a := by
  induction f with
  | nil => rfl
  | text s nx ih => exact ih
  | elem e k nx ihk ih =>
    have he : (if e.ref = r then c e else e).ref = e.ref := by
      split
      · exact hc e
      · rfl
    simp only [Forest.modifyElem, Forest.under, he, ihk, ih, refs_modifyElem _ _ hc]

theorem errLeaves_modifyElem (old : List Nat) (r : Nat) (c : Elem → Elem) (hc : ClassChange c)
    (f : Forest) (h : ErrLeaves old f) : ErrLeaves old (f.modifyElem r c) := by
  induction f with
  | nil => exact h
  | text s nx ih => exact ih h
  | elem e k nx ihk ih =>
    obtain ⟨h1, h2, h3⟩ := h
    refine ⟨?_, ihk h2, ih h3⟩
    have he : isFieldError (if e.ref = r then c e else e) = isFieldError e ∧
        (if e.ref = r then c e else e).ref = e.ref ∧
        isValidated (if e.ref = r then c e else e) = isValidated e := by
      split
      · exact ⟨classChange_isFieldError hc e, classChange_ref hc e, classChange_isValidated hc e⟩
      · exact ⟨rfl, rfl, rfl⟩
    rw [he.1, he.2.1, he.2.2, pre_modifyElem]
    intro herr
    obtain ⟨h4, h5, h6⟩ := h1 herr
    exact ⟨by simp [h4], h5, h6⟩

theorem filter_map_modify (r : Nat) (c : Elem → Elem) (hc : ClassChange c) {sel : Elem → Bool}
    (hsel : FieldSelector sel) (l : List Elem) :
    ((l.map (fun e => if e.ref = r then c e else e)).filter sel).map (fun e => (e.ref, e.value)) =
      (l.filter sel).map (fun e => (e.ref, e.value)) := by
  induction l with
  | nil => rfl
  | cons e l ih =>
    have he : sel (if e.ref = r then c e else e) = sel e ∧
        (if e.ref = r then c e else e).ref = e.ref ∧
        (if e.ref = r then c e else e).value = e.value := by
      split
      · exact ⟨classChange_sel hc hsel e, classChange_ref hc e, classChange_value hc e⟩
      · exact ⟨rfl, rfl, rfl⟩
    simp only [List.map_cons, List.filter_cons, he.1]
    split
    · simp only [List.map_cons, he.2.1, he.2.2, ih]
    · exact ih

theorem benign_modifyElem (old : List Nat) (r : Nat) (c : Elem → Elem) (hc : ClassChange c) :
    Benign old (Forest.modifyElem r c) where
  errLeaves := fun k hk => errLeaves_modifyElem old r c hc k hk
  refs := fun k _ x _ => by rw [refs_modifyElem _ _ (classChange_ref hc)]
  top := fun k _ x _ => topAny_modifyElem _ _ _ (classChange_ref hc) k
  parent := fun k _ x _ => parentOf_modifyElem _ _ _ (classChange_ref hc) k
  under := fun k _ a x _ hx => by rwa [under_modifyElem _ _ _ (classChange_ref hc)] at hx
  selected := fun k _ sel hsel => by
    unfold selected
    rw [pre_modifyElem]
    exact filter_map_modify r c hc hsel _

theorem selectedBelow_modifyElem (r : Nat) (c : Elem → Elem) (hc : ClassChange c)
    (sel : Elem → Bool) (hsel : FieldSelector sel) (f : Forest) :
    selectedBelow sel (f.modifyElem r c) = selectedBelow sel f := by
  unfold selectedBelow
  rw [descendants_modifyElem]
  exact filter_map_modify r c hc hsel _

theorem selected_elem (sel : Elem → Bool) (e : Elem) (k nx : Forest) :
    selected sel (Forest.elem e k nx) =
      (if sel e then [(e.ref, e.value)] else []) ++ (selected sel k ++ selected sel nx) := by
  unfold selected
  simp only [Forest.pre, List.filter_cons, List.filter_append]
  split <;> simp

theorem selectedBelow_elem (sel : Elem → Bool) (e : Elem) (k nx : Forest) :
    selectedBelow sel (Forest.elem e k nx) = selected sel k := rfl

theorem top_of_pre_nil (k : Forest) (h : k.pre = []) : k.top = [] := by
  induction k with
  | nil => rfl
  | text s nx ih => exact ih h
  | elem e k nx _ _ => simp [Forest.pre] at h

theorem parentOf_of_pre_nil (x : Nat) (k : Forest) (h : k.pre = []) : k.parentOf x = none := by
  induction k with
  | nil => rfl
  | text s nx ih => exact ih h
  | elem e k nx _ _ => simp [Forest.pre] at h

theorem under_of_pre_nil (a : Nat) (k : Forest) (h : k.pre = []) : k.under a = [] := by
  induction k with
  | nil => rfl
  | text s nx ih => exact ih h
  | elem e k nx _ _ => simp [Forest.pre] at h

theorem sel_false_of_not_validated {sel : Elem → Bool} (hsel : FieldSelector sel) (e : Elem)
    (h : isValidated e = false) : sel e = false := by
  by_contra hc
  have h1 : sel e = true := by simpa using hc
  rw [hsel.validated e h1] at h
  cases h

theorem errLeaves_removeFirst (old : List Nat) (k : Forest) (hk : ErrLeaves old k) :
    ErrLeaves old (k.removeFirst isFieldError) := by
  induction k with
  | nil => exact hk
  | text s nx ih => exact ih hk
  | elem e k nx ihk ih =>
    obtain ⟨h1, h2, h3⟩ := hk
    simp only [Forest.removeFirst]
    split
    · exact h3
    · split
      · refine ⟨fun herr => ?_, ihk h2, h3⟩
        rename_i hne _
        exact absurd herr hne
      · exact ⟨h1, h2, ih h3⟩

theorem mem_refs_removeFirst_old (old : List Nat) (k : Forest) (hk : ErrLeaves old k) (x : Nat)
    (hx : x ∈ old) (hmem : x ∈ k.refs) : x ∈ (k.removeFirst isFieldError).refs := by
  induction k with
  | nil => exact hmem
  | text s nx ih => exact ih hk hmem
  | elem e k nx ihk ih =>
    obtain ⟨h1, h2, h3⟩ := hk
    rw [refs_elem] at hmem
    simp only [Forest.removeFirst]
    split
    · rename_i herr
      obtain ⟨h4, h5, -⟩ := h1 herr
      simp only [Forest.refs, h4, List.map_nil, List.nil_append, List.mem_cons] at hmem
      rcases hmem with rfl | hmem
      · exact absurd hx h5
      · exact hmem
    · split
      · rw [refs_elem]
        simp only [List.mem_cons, List.mem_append] at hmem ⊢
        rcases hmem with h | h | h
        · exact Or.inl h
        · exact Or.inr (Or.inl (ihk h2 h))
        · exact Or.inr (Or.inr h)
      · rw [refs_elem]
        simp only [List.mem_cons, List.mem_append] at hmem ⊢
        rcases hmem with h | h | h
        · exact Or.inl h
        · exact Or.inr (Or.inl h)
        · exact Or.inr (Or.inr (ih h3 h))

theorem topAny_removeFirst (old : List Nat) (k : Forest) (hk : ErrLeaves old k) (x : Nat)
    (hx : x ∈ old) :
    ((k.removeFirst isFieldError).top.any fun c => c.ref = x) = (k.top.any fun c => c.ref = x) := by
  induction k with
  | nil => rfl
  | text s nx ih => exact ih hk
  | elem e k nx _ ih =>
    obtain ⟨h1, -, h3⟩ := hk
    simp only [Forest.removeFirst]
    split
    · rename_i herr
      obtain ⟨-, h5, -⟩ := h1 herr
      have : e.ref ≠ x := fun h => h5 (h ▸ hx)
      simp [Forest.top, this]
    · split
      · rfl
      · simp only [Forest.top, List.any_cons, ih h3]

theorem parentOf_removeFirst (old : List Nat) (k : Forest) (hk : ErrLeaves old k) (x : Nat)
    (hx : x ∈ old) : (k.removeFirst isFieldError).parentOf x = k.parentOf x := by
  induction k with
  | nil => rfl
  | text s nx ih => exact ih hk
  | elem e k nx ihk ih =>
    obtain ⟨h1, h2, h3⟩ := hk
    simp only [Forest.removeFirst]
    split
    · rename_i herr
      obtain ⟨h4, -, -⟩ := h1 herr
      simp [Forest.parentOf, top_of_pre_nil k h4, parentOf_of_pre_nil x k h4]
    · split
      · simp only [Forest.parentOf, topAny_removeFirst old k h2 x hx, ihk h2]
      · simp only [Forest.parentOf, ih h3]

theorem mem_under_removeFirst (sel : Elem → Bool) (k : Forest) (a x : Nat)
    (h : x ∈ (k.removeFirst sel).under a) : x ∈ k.under a := by
  induction k with
  | nil => exact h
  | text s nx ih => exact ih h
  | elem e k nx ihk ih =>
    simp only [Forest.removeFirst] at h
    simp only [Forest.under, List.mem_append]
    split at h
    · exact Or.inr h
    · split at h
      · simp only [Forest.under, List.mem_append] at h
        rcases h with h | h
        · left
          split at h
          · rename_i hea
            rw [if_pos hea]
            exact mem_refs_removeFirst _ _ _ h
          · rename_i hea
            rw [if_neg hea]
            exact ihk h
        · exact Or.inr h
      · simp only [Forest.under, List.mem_append] at h
        rcases h with h | h
        · exact Or.inl h
        · exact Or.inr (ih h)

theorem selected_removeFirst (old : List Nat) (k : Forest) (hk : ErrLeaves old k)
    (sel : Elem → Bool) (hsel : FieldSelector sel) :
    selected sel (k.removeFirst isFieldError) = selected sel k := by
  induction k with
  | nil => rfl
  | text s nx ih => exact ih hk
  | elem e k nx ihk ih =>
    obtain ⟨h1, h2, h3⟩ := hk
    simp only [Forest.removeFirst]
    split
    · rename_i herr
      obtain ⟨h4, -, h6⟩ := h1 herr
      rw [selected_elem, sel_false_of_not_validated hsel e h6]
      simp [selected, h4]
    · split
      · rw [selected_elem, selected_elem, ihk h2]
      · rw [selected_elem, selected_elem, ih h3]

theorem benign_removeFirst (old : List Nat) : Benign old (Forest.removeFirst isFieldError) where
  errLeaves := errLeaves_removeFirst old
  refs := fun k hk x hx =>
    ⟨mem_refs_removeFirst _ _ _, mem_refs_removeFirst_old old k hk x hx⟩
  top := fun k hk x hx => topAny_removeFirst old k hk x hx
  parent := fun k hk x hx => parentOf_removeFirst old k hk x hx
  under := fun k _ a x _ h => mem_under_removeFirst _ k a x h
  selected := fun k hk sel hsel => selected_removeFirst old k hk sel hsel

theorem top_append (f g : Forest) : (f.append g).top = f.top ++ g.top := by
  induction f with
  | nil => rfl
  | text s nx ih => simpa [Forest.append, Forest.top] using ih
  | elem e k nx _ ih => simp [Forest.append, Forest.top, ih]

theorem under_append (a : Nat) (f g : Forest) : (f.append g).under a = f.under a ++ g.under a := by
  induction f with
  | nil => rfl
  | text s nx ih => simpa [Forest.append, Forest.under] using ih
  | elem e k nx _ ih => simp [Forest.append, Forest.under, ih]

theorem descendants_append_leaf (leaf : Elem) (lk : Forest) (hlk : lk.pre = []) (f : Forest) :
    (f.append (Forest.elem leaf lk Forest.nil)).descendants = f.descendants := by
  induction f with
  | nil => simp [Forest.append, Forest.descendants, hlk]
  | text s nx ih => simpa [Forest.append, Forest.descendants] using ih
  | elem e k nx _ _ => rfl

theorem errLeaves_append (old : List Nat) (f g : Forest) (hf : ErrLeaves old f)
    (hg : ErrLeaves old g) : ErrLeaves old (f.append g) := by
  induction f with
  | nil => exact hg
  | text s nx ih => exact ih hf
  | elem e k nx _ ih => exact ⟨hf.1, hf.2.1, ih hf.2.2⟩

theorem errLeaves_of_pre_nil (old : List Nat) (k : Forest) (h : k.pre = []) : ErrLeaves old k := by
  induction k with
  | nil => trivial
  | text s nx ih => exact ih h
  | elem e k nx _ _ => simp [Forest.pre] at h

theorem parentOf_append_leaf (x : Nat) (leaf : Elem) (lk : Forest) (hlk : lk.pre = [])
    (f : Forest) :
    (f.append (Forest.elem leaf lk Forest.nil)).parentOf x = f.parentOf x := by
  induction f with
  | nil => simp [Forest.append, Forest.parentOf, top_of_pre_nil lk hlk, parentOf_of_pre_nil x lk hlk]
  | text s nx ih => exact ih
  | elem e k nx _ ih => simp only [Forest.append, Forest.parentOf, ih]

theorem benign_append_leaf (old : List Nat) (leaf : Elem) (lk : Forest) (hlk : lk.pre = [])
    (hleaf : leaf.ref ∉ old) (hval : isValidated leaf = false) :
    Benign old (fun k => k.append (Forest.elem leaf lk Forest.nil)) where
  errLeaves := fun k hk =>
    errLeaves_append old k _ hk
      ⟨fun _ => ⟨hlk, hleaf, hval⟩, errLeaves_of_pre_nil old lk hlk, trivial⟩
  refs := fun k _ x hx => by
    have hne : x ≠ leaf.ref := fun h => hleaf (h ▸ hx)
    rw [refs_append, refs_elem]
    simp [Forest.refs, hlk, Forest.pre, hne]
  top := fun k _ x hx => by
    have hne : leaf.ref ≠ x := fun h => hleaf (h ▸ hx)
    simp [top_append, Forest.top, hne]
  parent := fun k _ x hx =>
    parentOf_append_leaf x leaf lk hlk k
  under := fun k _ a x _ h => by
    rw [under_append] at h
    simpa [Forest.under, Forest.refs, hlk, under_of_pre_nil a lk hlk] using h
  selected := fun k _ sel hsel => by
    unfold selected
    simp [pre_append, Forest.pre, hlk, sel_false_of_not_validated hsel leaf hval]

theorem topAny_atKids (q x : Nat) (h : Forest → Forest) (f : Forest) :
    ((f.atKids q h).top.any fun c => c.ref = x) = (f.top.any fun c => c.ref = x) := by
  induction f with
  | nil => rfl
  | text s nx ih => exact ih
  | elem e k nx _ ih =>
    simp only [Forest.atKids]
    split
    · rfl
    · simp only [Forest.top, List.any_cons, ih]

theorem errLeaves_atKids (old : List Nat) (q : Nat) (hq : q ∈ old) (h : Forest → Forest)
    (hh : Benign old h) (f : Forest) (hf : ErrLeaves old f) : ErrLeaves old (f.atKids q h) := by
  induction f with
  | nil => exact hf
  | text s nx ih => exact ih hf
  | elem e k nx ihk ih =>
    obtain ⟨h1, h2, h3⟩ := hf
    simp only [Forest.atKids]
    split
    · rename_i heq
      refine ⟨fun herr => ?_, hh.errLeaves k h2, h3⟩
      exact absurd (heq ▸ hq) (h1 herr).2.1
    · refine ⟨fun herr => ?_, ihk h2, ih h3⟩
      obtain ⟨h4, h5, h6⟩ := h1 herr
      refine ⟨?_, h5, h6⟩
      have hk : q ∉ k.refs := by simp [Forest.refs, h4]
      rw [atKids_of_not_mem _ _ _ hk]
      exact h4

theorem mem_refs_atKids (old : List Nat) (q : Nat) (h : Forest → Forest) (hh : Benign old h)
    (f : Forest) (hf : ErrLeaves old f) (x : Nat) (hx : x ∈ old) :
    x ∈ (f.atKids q h).refs ↔ x ∈ f.refs := by
  induction f with
  | nil => exact Iff.rfl
  | text s nx ih => exact ih hf
  | elem e k nx ihk ih =>
    obtain ⟨-, h2, h3⟩ := hf
    simp only [Forest.atKids]
    split
    · simp only [refs_elem, List.mem_cons, List.mem_append, hh.refs k h2 x hx]
    · simp only [refs_elem, List.mem_cons, List.mem_append, ihk h2, ih h3]

theorem parentOf_atKids (old : List Nat) (q : Nat) (h : Forest → Forest) (hh : Benign old h)
    (f : Forest) (hf : ErrLeaves old f) (x : Nat) (hx : x ∈ old) :
    (f.atKids q h).parentOf x = f.parentOf x := by
  induction f with
  | nil => rfl
  | text s nx ih => exact ih hf
  | elem e k nx ihk ih =>
    obtain ⟨-, h2, h3⟩ := hf
    simp only [Forest.atKids]
    split
    · simp only [Forest.parentOf, hh.top k h2 x hx, hh.parent k h2 x hx]
    · simp only [Forest.parentOf, topAny_atKids, ihk h2, ih h3]

theorem mem_under_atKids (old : List Nat) (q : Nat) (h : Forest → Forest) (hh : Benign old h)
    (f : Forest) (hf : ErrLeaves old f) (a x : Nat) (hx : x ∈ old)
    (hmem : x ∈ (f.atKids q h).under a) : x ∈ f.under a := by
  induction f with
  | nil => exact hmem
  | text s nx ih => exact ih hf hmem
  | elem e k nx ihk ih =>
    obtain ⟨-, h2, h3⟩ := hf
    simp only [Forest.atKids] at hmem
    simp only [Forest.under, List.mem_append]
    split at hmem
    · simp only [Forest.under, List.mem_append] at hmem
      rcases hmem with hm | hm
      · left
        split at hm
        · rename_i hea
          rw [if_pos hea]
          exact (hh.refs k h2 x hx).1 hm
        · rename_i hea
          rw [if_neg hea]
          exact hh.under k h2 a x hx hm
      · exact Or.inr hm
    · simp only [Forest.under, List.mem_append] at hmem
      rcases hmem with hm | hm
      · left
        split at hm
        · rename_i hea
          rw [if_pos hea]
          exact (mem_refs_atKids old q h hh k h2 x hx).1 hm
        · rename_i hea
          rw [if_neg hea]
          exact ihk h2 hm
      · exact Or.inr (ih h3 hm)

theorem selected_atKids (old : List Nat) (q : Nat) (h : Forest → Forest) (hh : Benign old h)
    (f : Forest) (hf : ErrLeaves old f) (sel : Elem → Bool) (hsel : FieldSelector sel) :
    selected sel (f.atKids q h) = selected sel f := by
  induction f with
  | nil => rfl
  | text s nx ih => exact ih hf
  | elem e k nx ihk ih =>
    obtain ⟨-, h2, h3⟩ := hf
    simp only [Forest.atKids]
    split
    · rw [selected_elem, selected_elem, hh.selected k h2 sel hsel]
    · rw [selected_elem, selected_elem, ihk h2, ih h3]

theorem selectedBelow_atKids (old : List Nat) (q : Nat) (h : Forest → Forest)
    (hh : Benign old h) (f : Forest) (hf : ErrLeaves old f) (sel : Elem → Bool)
    (hsel : FieldSelector sel) :
    selectedBelow sel (f.atKids q h) = selectedBelow sel f := by
  induction f with
  | nil => rfl
  | text s nx ih => exact ih hf
  | elem e k nx _ _ =>
    obtain ⟨-, h2, -⟩ := hf
    simp only [Forest.atKids]
    split
    · rw [selectedBelow_elem, selectedBelow_elem, hh.selected k h2 sel hsel]
    · rw [selectedBelow_elem, selectedBelow_elem, selected_atKids old q h hh k h2 sel hsel]

theorem benign_atKids (old : List Nat) (q : Nat) (hq : q ∈ old) (h : Forest → Forest)
    (hh : Benign old h) : Benign old (Forest.atKids q h) where
  errLeaves := errLeaves_atKids old q hq h hh
  refs := mem_refs_atKids old q h hh
  top := fun k _ x _ => topAny_atKids q x h k
  parent := parentOf_atKids old q h hh
  under := fun k hk a x hx hm => mem_under_atKids old q h hh k hk a x hx hm
  selected := selected_atKids old q h hh

theorem fieldSelector_isRequired : FieldSelector isRequired where
  validated := fun e h => by simp [isValidated, h]
  classes := fun _ _ => rfl

theorem fieldSelector_isEmailInput : FieldSelector isEmailInput where
  validated := fun e h => by simp [isValidated, h]
  classes := fun _ _ => rfl

theorem reached_of_benign (form f : Forest) (h : Forest → Forest) (hh : Benign form.refs h)
    (hbelow : ∀ sel, FieldSelector sel → selectedBelow sel (h f) = selectedBelow sel f)
    (hf : Reached form f) : Reached form (h f) where
  errLeaves := hh.errLeaves f hf.errLeaves
  refs := fun x hx => (hh.refs f hf.errLeaves x hx).2 (hf.refs x hx)
  parent := fun x hx => by rw [hh.parent f hf.errLeaves x hx, hf.parent x hx]
  under := fun a x hx hm => hf.under a x hx (hh.under f hf.errLeaves a x hx hm)
  required := by rw [hbelow _ fieldSelector_isRequired, hf.required]
  email := by rw [hbelow _ fieldSelector_isEmailInput, hf.email]

theorem reached_modifyElem (form f : Forest) (r : Nat) (c : Elem → Elem) (hc : ClassChange c)
    (hf : Reached form f) : Reached form (f.modifyElem r c) :=
  reached_of_benign form f _ (benign_modifyElem form.refs r c hc)
    (fun sel hsel => selectedBelow_modifyElem r c hc sel hsel f) hf

theorem reached_atKids (form f : Forest) (q : Nat) (hq : q ∈ form.refs) (h : Forest → Forest)
    (hh : Benign form.refs h) (hf : Reached form f) : Reached form (f.atKids q h) :=
  reached_of_benign form f _ (benign_atKids form.refs q hq h hh)
    (fun sel hsel => selectedBelow_atKids form.refs q h hh f hf.errLeaves sel hsel) hf

theorem reached_append_leaf (form f : Forest) (leaf : Elem) (lk : Forest) (hlk : lk.pre = [])
    (hleaf : leaf.ref ∉ form.refs) (hval : isValidated leaf = false) (hf : Reached form f) :
    Reached form (f.append (Forest.elem leaf lk Forest.nil)) :=
  reached_of_benign form f _ (benign_append_leaf form.refs leaf lk hlk hleaf hval)
    (fun sel _ => by unfold selectedBelow; rw [descendants_append_leaf leaf lk hlk]) hf

theorem parentOf_some_mem (x q : Nat) (f : Forest) (h : f.parentOf x = some q) : q ∈ f.refs := by
  induction f with
  | nil => cases h
  | text s nx ih => exact ih h
  | elem e k nx ihk ih =>
    rw [refs_elem]
    simp only [Forest.parentOf] at h
    split at h
    · cases h
      exact List.mem_cons_self _ _
    · cases hk : Forest.parentOf x k with
      | some v =>
        rw [hk] at h
        cases h
        exact List.mem_cons_of_mem _ (List.mem_append_left _ (ihk hk))
      | none =>
        rw [hk] at h
        exact List.mem_cons_of_mem _ (List.mem_append_right _ (ih h))

theorem parentOf_some_kidsOf (x q : Nat) (f : Forest) (h : f.parentOf x = some q) :
    (f.kidsOf q).isSome = true := by
  have := parentOf_some_mem x q f h
  rw [kidsOf_isSome]
  unfold Forest.elemOf
  unfold Forest.refs at this
  obtain ⟨e, he, rfl⟩ := List.mem_map.1 this
  cases hf : List.find? (fun d => decide (d.ref = e.ref)) f.pre with
  | some v => rfl
  | none =>
    have := List.find?_eq_none.1 hf e he
    simp at this

theorem mem_pre_of_kidsOf (p : Nat) (f k : Forest) (h : f.kidsOf p = some k) (e : Elem)
    (he : e ∈ k.pre) : e ∈ f.pre := by
  induction f with
  | nil => cases h
  | text s nx ih => exact ih h
  | elem d kk nx ihk ih =>
    simp only [Forest.kidsOf] at h
    simp only [Forest.pre, List.mem_cons, List.mem_append]
    split at h
    · cases h
      exact Or.inr (Or.inl he)
    · cases hk : Forest.kidsOf p kk with
      | some v =>
        rw [hk] at h
        cases h
        exact Or.inr (Or.inl (ihk hk))
      | none =>
        rw [hk] at h
        exact Or.inr (Or.inr (ih h))

theorem errLeaves_of_clean (old : List Nat) (f : Forest)
    (hclean : ∀ e ∈ f.pre, isFieldError e = false) : ErrLeaves old f := by
  induction f with
  | nil => trivial
  | text s nx ih => exact ih hclean
  | elem e k nx ihk ih =>
    refine ⟨fun herr => ?_, ihk ?_, ih ?_⟩
    · rw [hclean e (by simp [Forest.pre])] at herr
      cases herr
    · exact fun d hd => hclean d (by simp [Forest.pre, hd])
    · exact fun d hd => hclean d (by simp [Forest.pre, hd])

theorem reached_refl (form : Forest) (hclean : ∀ e ∈ form.pre, isFieldError e = false) :
    Reached form form where
  errLeaves := errLeaves_of_clean form.refs form hclean
  refs := fun _ hx => hx
  parent := fun _ _ => rfl
  under := fun _ _ _ h => h
  required := rfl
  email := rfl

theorem modifyElem_append (r : Nat) (c : Elem → Elem) (f g : Forest) :
    (f.append g).modifyElem r c = (f.modifyElem r c).append (g.modifyElem r c) := by
  induction f with
  | nil => rfl
  | text s nx ih => simp [Forest.append, Forest.modifyElem, ih]
  | elem e k nx _ ih => simp [Forest.append, Forest.modifyElem, ih]

theorem errorFree_modifyElem (r : Nat) (c : Elem → Elem) (hc : ClassChange c) (k : Forest)
    (hk : ErrorFree k) : ErrorFree (k.modifyElem r c) := by
  unfold ErrorFree at *
  rw [pre_modifyElem]
  rw [List.filter_eq_nil_iff] at hk ⊢
  intro e he
  obtain ⟨d, hd, rfl⟩ := List.mem_map.1 he
  have := hk d hd
  split
  · rw [classChange_isFieldError hc]
    exact this
  · exact this

theorem removeFirst_errorFree (k : Forest) (hk : ErrorFree k) :
    k.removeFirst isFieldError = k := by
  unfold ErrorFree at hk
  induction k with
  | nil => rfl
  | text s nx ih =>
    simp only [Forest.removeFirst]
    rw [ih hk]
  | elem e k nx ihk ih =>
    simp only [Forest.pre, List.filter_cons, List.filter_append] at hk
    split at hk
    · cases hk
    · rename_i he
      simp only [List.append_eq_nil] at hk
      have hany : (k.pre.any isFieldError) = false := by
        rw [List.any_eq_false]
        intro x hx
        have := List.filter_eq_nil_iff.1 hk.1 x hx
        simpa using this
      simp only [Forest.removeFirst, he, hany, if_false, Bool.false_eq_true]
      rw [ih hk.2]

theorem removeFirst_append_error (k0 : Forest) (e : Elem) (kk : Forest) (hk : ErrorFree k0)
    (he : isFieldError e = true) :
    (k0.append (Forest.elem e kk Forest.nil)).removeFirst isFieldError = k0 := by
  unfold ErrorFree at hk
  induction k0 with
  | nil => simp [Forest.append, Forest.removeFirst, he]
  | text s nx ih =>
    simp only [Forest.append, Forest.removeFirst]
    rw [ih hk]
  | elem d k nx _ ih =>
    simp only [Forest.pre, List.filter_cons, List.filter_append] at hk
    split at hk
    · cases hk
    · rename_i hd
      simp only [List.append_eq_nil] at hk
      have hany : (k.pre.any isFieldError) = false := by
        rw [List.any_eq_false]
        intro x hx
        have := List.filter_eq_nil_iff.1 hk.1 x hx
        simpa using this
      simp only [Forest.append, Forest.removeFirst, hd, hany, if_false, Bool.false_eq_true]
      rw [ih hk.2]

theorem errorFree_textChild (s : String) : ErrorFree (textChild s) := by
  unfold ErrorFree
  rw [pre_textChild]
  rfl

theorem oneErrorLast_after_show (r : Nat) (leaf : Elem) (message : String)
    (hleaf : isFieldError leaf = true) (k : Forest) (hk : ErrorFree k ∨ OneErrorLast k) :
    OneErrorLast
      ((((k.modifyElem r (Elem.removeClass "border-red-500")).removeFirst isFieldError).modifyElem r
        (Elem.addClass "border-red-500")).append
          (Forest.elem leaf (textChild message) Forest.nil)) := by
  rcases hk with hk | ⟨k0, e, kk, rfl, he, hk0, -⟩
  · have h1 := errorFree_modifyElem r _ classChange_removeClass k hk
    rw [removeFirst_errorFree _ h1]
    exact ⟨_, leaf, _, rfl, hleaf, errorFree_modifyElem r _ classChange_addClass _ h1,
      errorFree_textChild message⟩
  · have h1 := errorFree_modifyElem r _ classChange_removeClass k0 hk0
    have he' : isFieldError (if e.ref = r then Elem.removeClass "border-red-500" e else e) = true := by
      split
      · rw [classChange_isFieldError classChange_removeClass]
        exact he
      · exact he
    rw [modifyElem_append]
    simp only [Forest.modifyElem]
    rw [removeFirst_append_error _ _ _ h1 he']
    exact ⟨_, leaf, _, rfl, hleaf, errorFree_modifyElem r _ classChange_addClass _ h1,
      errorFree_textChild message⟩

theorem errLeaves_kidsOf (old : List Nat) (p : Nat) (f k : Forest) (hf : ErrLeaves old f)
    (hk : f.kidsOf p = some k) : ErrLeaves old k := by
  induction f with
  | nil => cases hk
  | text s nx ih => exact ih hf hk
  | elem e kk nx ihk ih =>
    obtain ⟨-, h2, h3⟩ := hf
    simp only [Forest.kidsOf] at hk
    split at hk
    · cases hk
      exact h2
    · cases hkk : Forest.kidsOf p kk with
      | some v =>
        rw [hkk] at hk
        cases hk
        exact ihk h2 hkk
      | none =>
        rw [hkk] at hk
        exact ih h3 hk

theorem findFirst_errLeaves (old : List Nat) (k : Forest) (hk : ErrLeaves old k) (e : Elem)
    (kk : Forest) (h : k.findFirst isFieldError = some (e, kk)) :
    isFieldError e = true ∧ kk.pre = [] ∧ e.ref ∉ old ∧ isValidated e = false := by
  induction k with
  | nil => cases h
  | text s nx ih => exact ih hk h
  | elem d k2 nx ihk ih =>
    obtain ⟨h1, h2, h3⟩ := hk
    simp only [Forest.findFirst] at h
    split at h
    · rename_i hd
      cases h
      exact ⟨hd, h1 hd⟩
    · cases hf : Forest.findFirst isFieldError k2 with
      | some v =>
        rw [hf] at h
        cases h
        exact ihk h2 hf
      | none =>
        rw [hf] at h
        exact ih h3 h

theorem findFirst_none_errorFree (k : Forest) (h : k.findFirst isFieldError = none) :
    ErrorFree k := by
  unfold ErrorFree
  induction k with
  | nil => rfl
  | text s nx ih => exact ih h
  | elem d k2 nx ihk ih =>
    simp only [Forest.findFirst] at h
    split at h
    · cases h
    · rename_i hd
      cases hf : Forest.findFirst isFieldError k2 with
      | some v =>
        rw [hf] at h
        cases h
      | none =>
        rw [hf] at h
        simp only [Forest.pre, List.filter_cons, hd, if_false, Bool.false_eq_true,
          List.filter_append, ihk hf, ih h, List.append_nil]

theorem kidsOf_append_leaf (p : Nat) (leaf : Elem) (lk : Forest) (hlk : lk.pre = [])
    (hne : leaf.ref ≠ p) (f : Forest) :
    (f.append (Forest.elem leaf lk Forest.nil)).kidsOf p = f.kidsOf p := by
  induction f with
  | nil =>
    have : p ∉ lk.refs := by simp [Forest.refs, hlk]
    simp [Forest.append, Forest.kidsOf, hne, kidsOf_of_not_mem p lk this]
  | text s nx ih => exact ih
  | elem e k nx _ ih => simp only [Forest.append, Forest.kidsOf, ih]

theorem reached_removeExistingError (form f : Forest) (q : Nat) (hq : q ∈ form.refs)
    (hf : Reached form f) : Reached form (removeExistingError q f) := by
  unfold removeExistingError
  cases hk : f.kidsOf q with
  | none => exact hf
  | some k =>
    cases hm : k.findFirst isFieldError with
    | none =>
      simp only [Option.bind, hm]
      exact hf
    | some node =>
      simp only [Option.bind, hm]
      obtain ⟨-, h2, h3, h4⟩ :=
        findFirst_errLeaves form.refs k (errLeaves_kidsOf _ q f k hf.errLeaves hk) node.1 node.2 hm
      exact reached_append_leaf form _ node.1 node.2 h2 h3 h4
        (reached_atKids form f q hq _ (benign_removeFirst form.refs) hf)

theorem kidsOf_removeExistingError_self (form f : Forest) (p : Nat) (hp : p ∈ form.refs)
    (hf : Reached form f) :
    (removeExistingError p f).kidsOf p = (f.kidsOf p).map (Forest.removeFirst isFieldError) := by
  unfold removeExistingError
  cases hk : f.kidsOf p with
  | none => simp [hk]
  | some k =>
    cases hm : k.findFirst isFieldError with
    | none =>
      simp only [Option.bind, hm, hk, Option.map]
      rw [removeFirst_errorFree k (findFirst_none_errorFree k hm)]
    | some node =>
      simp only [Option.bind, hm]
      obtain ⟨-, h2, h3, -⟩ :=
        findFirst_errLeaves form.refs k (errLeaves_kidsOf _ p f k hf.errLeaves hk) node.1 node.2 hm
      rw [kidsOf_append_leaf p node.1 node.2 h2 (fun h => h3 (h ▸ hp)), kidsOf_atKids_self, hk]

theorem clearFieldError_reached (form f : Forest) (g q : Nat) (hf : Reached form f)
    (hg : g ∈ form.refs) (hq : form.parentOf g = some q) :
    clearFieldError g f =
        some (removeExistingError q (f.modifyElem g (Elem.removeClass "border-red-500"))) ∧
      Reached form (f.modifyElem g (Elem.removeClass "border-red-500")) ∧
      Reached form
        (removeExistingError q (f.modifyElem g (Elem.removeClass "border-red-500"))) := by
  have h1 := reached_modifyElem form f g _ classChange_removeClass hf
  have hq' := parentOf_some_mem g q form hq
  refine ⟨?_, h1, reached_removeExistingError form _ q hq' h1⟩
  unfold clearFieldError
  simp only
  rw [h1.parent g hg, hq]

theorem showFieldError_reached (form f : Forest) (g q : Nat) (message : String)
    (hf : Reached form f) (hg : g ∈ form.refs) (hq : form.parentOf g = some q) :
    ∃ leaf : Elem, isFieldError leaf = true ∧ leaf.ref ∉ form.refs ∧
      showFieldError g message f =
        some (((removeExistingError q
          (f.modifyElem g (Elem.removeClass "border-red-500"))).modifyElem g
            (Elem.addClass "border-red-500")).atKids q
            (fun kids => kids.append (Forest.elem leaf (textChild message) Forest.nil))) ∧
      Reached form ((removeExistingError q
          (f.modifyElem g (Elem.removeClass "border-red-500"))).modifyElem g
            (Elem.addClass "border-red-500")) ∧
      Reached form (((removeExistingError q
          (f.modifyElem g (Elem.removeClass "border-red-500"))).modifyElem g
            (Elem.addClass "border-red-500")).atKids q
            (fun kids => kids.append (Forest.elem leaf (textChild message) Forest.nil))) := by
  obtain ⟨hc, -, h2⟩ := clearFieldError_reached form f g q hf hg hq
  have h3 := reached_modifyElem form _ g _ classChange_addClass h2
  have hq' := parentOf_some_mem g q form hq
  generalize hF3 : ((removeExistingError q
          (f.modifyElem g (Elem.removeClass "border-red-500"))).modifyElem g
            (Elem.addClass "border-red-500")) = F3 at h3
  have hfresh : F3.fresh ∉ form.refs := fun h => fresh_not_mem F3 (h3.refs _ h)
  refine ⟨errorDiv F3.fresh, by rfl, hfresh, ?_, h3, ?_⟩
  · unfold showFieldError
    rw [hc]
    simp only [hF3]
    rw [h3.parent g hg, hq]
  · exact reached_atKids form _ q hq' _
      (benign_append_leaf form.refs _ _ (pre_textChild message) hfresh (by rfl)) h3

theorem showFieldError_self (form f : Forest) (g p : Nat) (message : String)
    (hf : Reached form f) (hg : g ∈ form.refs) (hp : form.parentOf g = some p)
    (hk : KidsWeak p f) :
    ∃ out, showFieldError g message f = some out ∧ Reached form out ∧ KidsStrong p out := by
  obtain ⟨leaf, hleaf, -, hs, -, hr⟩ := showFieldError_reached form f g p message hf hg hp
  obtain ⟨-, h1, -⟩ := clearFieldError_reached form f g p hf hg hp
  refine ⟨_, hs, hr, ?_⟩
  obtain ⟨k, hkids, hweak⟩ := hk
  refine ⟨_, ?_, oneErrorLast_after_show g leaf message hleaf k hweak⟩
  rw [kidsOf_atKids_self, kidsOf_modifyElem _ _ _ (classChange_ref classChange_addClass),
    kidsOf_removeExistingError_self form _ p (parentOf_some_mem g p form hp) h1,
    kidsOf_modifyElem _ _ _ (classChange_ref classChange_removeClass), hkids]
  rfl

theorem kidsOf_modifyElem_apart (form f : Forest) (g p : Nat) (c : Elem → Elem)
    (hc : ∀ e, (c e).ref = e.ref) (hf : Reached form f) (hg : g ∈ form.refs)
    (hgp : g ∉ form.under p) : (f.modifyElem g c).kidsOf p = f.kidsOf p :=
  kidsOf_modifyElem_frame p g c hc f (fun h => hgp (hf.under p g hg h))

theorem kidsOf_atKids_apart (form f : Forest) (q p : Nat) (h : Forest → Forest)
    (hh : ∀ k : Forest, p ∉ k.refs → p ∉ (h k).refs) (hf : Reached form f)
    (hq : q ∈ form.refs) (hp : p ∈ form.refs) (hne : q ≠ p) (hqp : q ∉ form.under p)
    (hpq : p ∉ form.under q) : (f.atKids q h).kidsOf p = f.kidsOf p :=
  kidsOf_atKids_frame p q h hh f hne (fun h => hqp (hf.under p q hq h))
    (fun h => hpq (hf.under q p hp h))

theorem kidsOf_removeExistingError_apart (form f : Forest) (q p : Nat) (hf : Reached form f)
    (hq : q ∈ form.refs) (hp : p ∈ form.refs) (hne : q ≠ p) (hqp : q ∉ form.under p)
    (hpq : p ∉ form.under q) : (removeExistingError q f).kidsOf p = f.kidsOf p := by
  unfold removeExistingError
  cases hk : f.kidsOf q with
  | none => rfl
  | some k =>
    cases hm : k.findFirst isFieldError with
    | none => simp only [Option.bind, hm]
    | some node =>
      simp only [Option.bind, hm]
      obtain ⟨-, h2, h3, -⟩ :=
        findFirst_errLeaves form.refs k (errLeaves_kidsOf _ q f k hf.errLeaves hk) node.1 node.2 hm
      rw [kidsOf_append_leaf p node.1 node.2 h2 (fun h => h3 (h ▸ hp))]
      exact kidsOf_atKids_apart form f q p _
        (fun k hk hmem => hk (mem_refs_removeFirst _ _ _ hmem)) hf hq hp hne hqp hpq

theorem clearFieldError_other (form f : Forest) (g q p : Nat) (hf : Reached form f)
    (hg : g ∈ form.refs) (hq : form.parentOf g = some q) (hp : p ∈ form.refs)
    (hsep : Separated form p g) :
    ∃ out, clearFieldError g f = some out ∧ Reached form out ∧ out.kidsOf p = f.kidsOf p := by
  obtain ⟨hc, h1, h2⟩ := clearFieldError_reached form f g q hf hg hq
  obtain ⟨hgp, hsep'⟩ := hsep
  obtain ⟨hne, hqp, hpq⟩ := hsep' q hq
  refine ⟨_, hc, h2, ?_⟩
  rw [kidsOf_removeExistingError_apart form _ q p h1 (parentOf_some_mem g q form hq) hp hne hqp
    hpq]
  exact kidsOf_modifyElem_apart form f g p _ (classChange_ref classChange_removeClass) hf hg hgp

theorem showFieldError_other (form f : Forest) (g q p : Nat) (message : String)
    (hf : Reached form f) (hg : g ∈ form.refs) (hq : form.parentOf g = some q)
    (hp : p ∈ form.refs) (hsep : Separated form p g) :
    ∃ out, showFieldError g message f = some out ∧ Reached form out ∧
      out.kidsOf p = f.kidsOf p := by
  obtain ⟨leaf, -, hleaf, hs, h3, h4⟩ := showFieldError_reached form f g q message hf hg hq
  obtain ⟨-, h1, h2⟩ := clearFieldError_reached form f g q hf hg hq
  obtain ⟨hgp, hsep'⟩ := hsep
  obtain ⟨hne, hqp, hpq⟩ := hsep' q hq
  have hq' := parentOf_some_mem g q form hq
  refine ⟨_, hs, h4, ?_⟩
  rw [kidsOf_atKids_apart form _ q p _ ?_ h3 hq' hp hne hqp hpq,
    kidsOf_modifyElem_apart form _ g p _ (classChange_ref classChange_addClass) h2 hg hgp,
    kidsOf_removeExistingError_apart form _ q p h1 hq' hp hne hqp hpq,
    kidsOf_modifyElem_apart form f g p _ (classChange_ref classChange_removeClass) hf hg hgp]
  intro k hk hm
  rw [refs_append, refs_elem] at hm
  simp only [Forest.refs, pre_textChild, List.map_nil, Forest.pre, List.append_nil,
    List.mem_append, List.mem_singleton] at hm
  rcases hm with hm | hm
  · exact hk hm
  · exact hleaf (hm ▸ hp)

theorem requiredStep_good (form : Forest) (f : Elem) (p : Nat) (hfmem : f.ref ∈ form.refs)
    (hempty : trim f.value = "") (hp : form.parentOf f.ref = some p) (st : Bool × Forest)
    (x : Elem) (hr : Reached form st.2) (hk : KidsWeak p st.2) (hx : GoodField form f p x) :
    ∃ st', requiredStep st x = some st' ∧ Reached form st'.2 ∧ KidsWeak p st'.2 ∧
      (KidsStrong p st.2 → KidsStrong p st'.2) ∧ (x.ref = f.ref → KidsStrong p st'.2) := by
  have hpm := parentOf_some_mem _ _ _ hp
  rcases hx with ⟨hxr, hxv⟩ | ⟨hne, hxm, hsep, q, hq⟩
  · obtain ⟨out, ho, hro, hso⟩ :=
      showFieldError_self form st.2 f.ref p "This field is required" hr hfmem hp hk
    refine ⟨(false, out), ?_, hro, ?_, fun _ => hso, fun _ => hso⟩
    · simp [requiredStep, hxv, hempty, hxr, ho]
    · obtain ⟨k, h1, h2⟩ := hso
      exact ⟨k, h1, Or.inr h2⟩
  · unfold requiredStep
    split
    · obtain ⟨out, ho, hro, hko⟩ :=
        showFieldError_other form st.2 x.ref q p "This field is required" hr hxm hq hpm hsep
      refine ⟨(false, out), by simp [ho], hro, ?_, ?_, fun h => absurd h hne⟩
      · unfold KidsWeak
        simp only [hko]
        exact hk
      · unfold KidsStrong
        simp only [hko]
        exact id
    · obtain ⟨out, ho, hro, hko⟩ :=
        clearFieldError_other form st.2 x.ref q p hr hxm hq hpm hsep
      refine ⟨(st.1, out), by simp [ho], hro, ?_, ?_, fun h => absurd h hne⟩
      · unfold KidsWeak
        simp only [hko]
        exact hk
      · unfold KidsStrong
        simp only [hko]
        exact id

theorem emailStep_good (form : Forest) (f : Elem) (p : Nat) (hfmem : f.ref ∈ form.refs)
    (hp : form.parentOf f.ref = some p) (st : Bool × Forest)
    (x : Elem) (hr : Reached form st.2) (hk : KidsWeak p st.2) (hx : GoodField form f p x) :
    ∃ st', emailStep st x = some st' ∧ Reached form st'.2 ∧ KidsWeak p st'.2 ∧
      (KidsStrong p st.2 → KidsStrong p st'.2) := by
  have hpm := parentOf_some_mem _ _ _ hp
  unfold emailStep
  split
  · rcases hx with ⟨hxr, -⟩ | ⟨-, hxm, hsep, q, hq⟩
    · obtain ⟨out, ho, hro, hso⟩ :=
        showFieldError_self form st.2 f.ref p "Please enter a valid email address" hr hfmem hp hk
      refine ⟨(false, out), by simp [hxr, ho], hro, ?_, fun _ => hso⟩
      obtain ⟨k, h1, h2⟩ := hso
      exact ⟨k, h1, Or.inr h2⟩
    · obtain ⟨out, ho, hro, hko⟩ :=
        showFieldError_other form st.2 x.ref q p "Please enter a valid email address" hr hxm hq
          hpm hsep
      refine ⟨(false, out), by simp [ho], hro, ?_, ?_⟩
      · unfold KidsWeak
        simp only [hko]
        exact hk
      · unfold KidsStrong
        simp only [hko]
        exact id
  · exact ⟨st, rfl, hr, hk, id⟩

theorem requiredLoop_good (form : Forest) (f : Elem) (p : Nat) (hfmem : f.ref ∈ form.refs)
    (hempty : trim f.value = "") (hp : form.parentOf f.ref = some p) (fields : List Elem)
    (st : Bool × Forest) (hr : Reached form st.2) (hk : KidsWeak p st.2)
    (hx : ∀ x ∈ fields, GoodField form f p x) :
    ∃ st', fields.foldlM requiredStep st = some st' ∧ Reached form st'.2 ∧ KidsWeak p st'.2 ∧
      (KidsStrong p st.2 → KidsStrong p st'.2) ∧
      ((∃ x ∈ fields, x.ref = f.ref) → KidsStrong p st'.2) := by
  induction fields generalizing st with
  | nil =>
    exact ⟨st, rfl, hr, hk, id, fun ⟨x, hx, _⟩ => by cases hx⟩
  | cons x fields ih =>
    obtain ⟨st1, h1, hr1, hk1, hs1, hf1⟩ :=
      requiredStep_good form f p hfmem hempty hp st x hr hk (hx x (List.mem_cons_self _ _))
    obtain ⟨st2, h2, hr2, hk2, hs2, hf2⟩ :=
      ih st1 hr1 hk1 (fun y hy => hx y (List.mem_cons_of_mem _ hy))
    refine ⟨st2, ?_, hr2, hk2, fun h => hs2 (hs1 h), ?_⟩
    · simp only [List.foldlM_cons, bind, Option.bind, h1, h2]
    · rintro ⟨y, hy, hyf⟩
      rcases List.mem_cons.1 hy with rfl | hy
      · exact hs2 (hf1 hyf)
      · exact hf2 ⟨y, hy, hyf⟩

theorem emailLoop_good (form : Forest) (f : Elem) (p : Nat) (hfmem : f.ref ∈ form.refs)
    (hp : form.parentOf f.ref = some p) (fields : List Elem)
    (st : Bool × Forest) (hr : Reached form st.2) (hk : KidsWeak p st.2)
    (hx : ∀ x ∈ fields, GoodField form f p x) :
    ∃ st', fields.foldlM emailStep st = some st' ∧ Reached form st'.2 ∧ KidsWeak p st'.2 ∧
      (KidsStrong p st.2 → KidsStrong p st'.2) := by
  induction fields generalizing st with
  | nil => exact ⟨st, rfl, hr, hk, id⟩
  | cons x fields ih =>
    obtain ⟨st1, h1, hr1, hk1, hs1⟩ :=
      emailStep_good form f p hfmem hp st x hr hk (hx x (List.mem_cons_self _ _))
    obtain ⟨st2, h2, hr2, hk2, hs2⟩ :=
      ih st1 hr1 hk1 (fun y hy => hx y (List.mem_cons_of_mem _ hy))
    refine ⟨st2, ?_, hr2, hk2, fun h => hs2 (hs1 h)⟩
    simp only [List.foldlM_cons, bind, Option.bind, h1, h2]

theorem descendants_sub_pre (f : Forest) (x : Elem) (h : x ∈ f.descendants) : x ∈ f.pre := by
  induction f with
  | nil => cases h
  | text s nx ih => exact ih h
  | elem e k nx _ _ =>
    simp only [Forest.descendants] at h
    simp only [Forest.pre, List.mem_cons, List.mem_append]
    exact Or.inr (Or.inl h)

theorem mem_pre_parentOf (k : Forest) (x : Elem) (h : x ∈ k.pre) :
    (k.top.any fun c => c.ref = x.ref) = true ∨ ∃ q, k.parentOf x.ref = some q := by
  induction k with
  | nil => cases h
  | text s nx ih => exact ih h
  | elem e kk nx ihk ih =>
    simp only [Forest.pre, List.mem_cons, List.mem_append] at h
    rcases h with rfl | h | h
    · left
      simp [Forest.top]
    · right
      simp only [Forest.parentOf]
      rcases ihk h with h1 | ⟨q, h1⟩
      · exact ⟨e.ref, by rw [if_pos h1]⟩
      · split
        · exact ⟨_, rfl⟩
        · exact ⟨q, by rw [h1]; rfl⟩
    · rcases ih h with h1 | ⟨q, h1⟩
      · left
        simp only [Forest.top, List.any_cons, h1, Bool.or_true]
      · right
        simp only [Forest.parentOf]
        split
        · exact ⟨_, rfl⟩
        · cases hk : Forest.parentOf x.ref kk with
          | some v => exact ⟨v, rfl⟩
          | none => exact ⟨q, by simpa using h1⟩

theorem parentOf_of_descendant (f : Forest) (x : Elem) (h : x ∈ f.descendants) :
    ∃ q, f.parentOf x.ref = some q := by
  induction f with
  | nil => cases h
  | text s nx ih => exact ih h
  | elem e k nx _ _ =>
    simp only [Forest.descendants] at h
    simp only [Forest.parentOf]
    rcases mem_pre_parentOf k x h with h1 | ⟨q, h1⟩
    · exact ⟨e.ref, by rw [if_pos h1]⟩
    · split
      · exact ⟨_, rfl⟩
      · exact ⟨q, by rw [h1]; rfl⟩

theorem goodField_of_selectedBelow (form : Forest) (f : Elem) (p : Nat)
    (hnodup : form.refs.Nodup) (hf : f ∈ form.descendants)
    (hapart : ∀ g ∈ form.descendants, isValidated g = true → g.ref ≠ f.ref →
      Separated form p g.ref)
    (sel : Elem → Bool) (hsel : FieldSelector sel) (cur : Forest)
    (heq : selectedBelow sel cur = selectedBelow sel form) (x : Elem)
    (hx : x ∈ cur.descendants.filter sel) : GoodField form f p x := by
  have hmem : (x.ref, x.value) ∈ selectedBelow sel cur :=
    List.mem_map.2 ⟨x, hx, rfl⟩
  rw [heq] at hmem
  obtain ⟨x0, hx0, hpair⟩ := List.mem_map.1 hmem
  simp only [Prod.mk.injEq] at hpair
  obtain ⟨hx0d, hx0s⟩ := List.mem_filter.1 hx0
  by_cases hr : x0.ref = f.ref
  · left
    have : x0 = f :=
      List.inj_on_of_nodup_map hnodup (descendants_sub_pre _ _ hx0d) (descendants_sub_pre _ _ hf) hr
    rw [← hpair.1, ← hpair.2, this]
    exact ⟨rfl, rfl⟩
  · right
    rw [← hpair.1]
    exact ⟨hr, List.mem_map.2 ⟨x0, descendants_sub_pre _ _ hx0d, rfl⟩,
      hapart x0 hx0d (hsel.validated x0 hx0s) hr, parentOf_of_descendant form x0 hx0d⟩

theorem validateForm_good (form : Forest) (f : Elem) (p : Nat)
    (hnodup : form.refs.Nodup) (hf : f ∈ form.descendants.filter isRequired)
    (hempty : trim f.value = "") (hp : form.parentOf f.ref = some p)
    (hapart : ∀ g ∈ form.descendants, isValidated g = true → g.ref ≠ f.ref →
      Separated form p g.ref)
    (cur : Forest) (hr : Reached form cur) (hk : KidsWeak p cur) :
    ∃ st, validateForm cur = some st ∧ Reached form st.2 ∧ KidsStrong p st.2 := by
  obtain ⟨hfd, hfs⟩ := List.mem_filter.1 hf
  have hfmem : f.ref ∈ form.refs := List.mem_map.2 ⟨f, descendants_sub_pre _ _ hfd, rfl⟩
  have hgood1 := goodField_of_selectedBelow form f p hnodup hfd hapart isRequired
    fieldSelector_isRequired cur hr.required
  obtain ⟨st1, h1, hr1, hk1, -, hs1⟩ :=
    requiredLoop_good form f p hfmem hempty hp (cur.descendants.filter isRequired) (true, cur)
      hr hk hgood1
  have hex : ∃ x ∈ cur.descendants.filter isRequired, x.ref = f.ref := by
    have hmem : (f.ref, f.value) ∈ selectedBelow isRequired form := List.mem_map.2 ⟨f, hf, rfl⟩
    rw [← hr.required] at hmem
    obtain ⟨x, hx, hpair⟩ := List.mem_map.1 hmem
    simp only [Prod.mk.injEq] at hpair
    exact ⟨x, hx, hpair.1⟩
  have hstrong := hs1 hex
  have hgood2 := goodField_of_selectedBelow form f p hnodup hfd hapart isEmailInput
    fieldSelector_isEmailInput st1.2 hr1.email
  obtain ⟨st2, h2, hr2, -, hs2⟩ :=
    emailLoop_good form f p hfmem hp (st1.2.descendants.filter isEmailInput) st1 hr1 hk1 hgood2
  refine ⟨st2, ?_, hr2, hs2 hstrong⟩
  unfold validateForm
  simp only [h1, h2]

theorem lastIsError_append (k0 : Forest) (e : Elem) (kk : Forest) :
    (k0.append (Forest.elem e kk Forest.nil)).lastIsError = isFieldError e := by
  induction k0 with
  | nil => rfl
  | text s nx ih =>
    cases nx with
    | nil => rfl
    | text s2 nx2 =>
      rw [← ih]
      rfl
    | elem d k2 nx2 =>
      rw [← ih]
      rfl
  | elem d k nx _ ih =>
    cases nx with
    | nil => rfl
    | text s2 nx2 =>
      rw [← ih]
      rfl
    | elem d2 k2 nx2 =>
      rw [← ih]
      rfl

theorem oneErrorLast_count (k : Forest) (h : OneErrorLast k) :
    (k.pre.filter isFieldError).length = 1 ∧ k.lastIsError = true := by
  obtain ⟨k0, e, kk, rfl, he, hk0, hkk⟩ := h
  unfold ErrorFree at hk0 hkk
  refine ⟨?_, by rw [lastIsError_append, he]⟩
  simp [pre_append, Forest.pre, List.filter_append, List.filter_cons, hk0, hkk, he]

/-- C3 (as amended): in a form that holds no inline error node, for a required
field with empty trimmed value whose parent has no other validated field below
it and lies below the parent of no other validated field, after any number
`n + 1` of consecutive `validateForm` calls the field is still a child of that
parent, the parent holds exactly one inline error node, and this node is the
parent's last child. -/
theorem validateTimes_one_error (form : Forest) (field : Elem) (parent n : Nat)
    (hnodup : form.refs.Nodup)
    (hclean : ∀ e ∈ form.pre, isFieldError e = false)
    (hfield : field ∈ form.descendants.filter isRequired)
    (hempty : trim field.value = "")
    (hparent : form.parentOf field.ref = some parent)
    (hapart : ∀ g ∈ form.descendants, isValidated g = true → g.ref ≠ field.ref →
      Separated form parent g.ref) :
    ∃ out kids, validateTimes (n + 1) form = some out ∧
      out.parentOf field.ref = some parent ∧ out.kidsOf parent = some kids ∧
      (kids.pre.filter isFieldError).length = 1 ∧ kids.lastIsError = true := by
  have hfmem : field.ref ∈ form.refs :=
    List.mem_map.2 ⟨field, descendants_sub_pre _ _ (List.mem_filter.1 hfield).1, rfl⟩
  have key : ∀ (m : Nat) (cur : Forest), Reached form cur → KidsWeak parent cur →
      ∃ out, validateTimes (m + 1) cur = some out ∧ Reached form out ∧ KidsStrong parent out := by
    intro m
    induction m with
    | zero =>
      intro cur hr hk
      obtain ⟨st, h1, hr1, hs1⟩ :=
        validateForm_good form field parent hnodup hfield hempty hparent hapart cur hr hk
      exact ⟨st.2, by simp [validateTimes, h1], hr1, hs1⟩
    | succ m ih =>
      intro cur hr hk
      obtain ⟨st, h1, hr1, k, hk1, hs1⟩ :=
        validateForm_good form field parent hnodup hfield hempty hparent hapart cur hr hk
      obtain ⟨out, h2, hr2, hs2⟩ := ih st.2 hr1 ⟨k, hk1, Or.inr hs1⟩
      refine ⟨out, ?_, hr2, hs2⟩
      rw [validateTimes]
      simp only [h1]
      exact h2
  have hweak : KidsWeak parent form := by
    have hsome := parentOf_some_kidsOf _ _ _ hparent
    cases hk : form.kidsOf parent with
    | none => rw [hk] at hsome; cases hsome
    | some k =>
      refine ⟨k, hk, Or.inl ?_⟩
      unfold ErrorFree
      rw [List.filter_eq_nil_iff]
      intro e he
      rw [hclean e (mem_pre_of_kidsOf parent form k hk e he)]
      simp
  obtain ⟨out, h1, hr1, k, hk1, hs1⟩ := key n form (reached_refl form hclean) hweak
  exact ⟨out, k, h1, by rw [hr1.parent _ hfmem, hparent], hk1, oneErrorLast_count k hs1⟩

/-- Witness for C3 (as amended): the form with one container per field, its
first field holding only blanks, validated three times. -/
theorem validateTimes_one_error_witness :
    ∃ out kids, validateTimes (2 + 1) groupedForm = some out ∧
      out.parentOf (input 2 [("required", "")] "  ").ref = some 1 ∧
      out.kidsOf 1 = some kids ∧
      (kids.pre.filter isFieldError).length = 1 ∧ kids.lastIsError = true :=
  validateTimes_one_error groupedForm (input 2 [("required", "")] "  ") 1 2 (by decide)
    (by decide) (by decide) (by decide) (by decide) (by
      intro g hg hv hne
      have hcases : g = plain 1 "div" ∨ g = input 2 [("required", "")] "  " ∨
          g = plain 3 "span" ∨ g = plain 4 "div" ∨
          g = input 5 [("required", ""), ("type", "email")] "a@b.co" := by
        simpa [groupedForm, Forest.descendants, Forest.pre] using hg
      rcases hcases with rfl | rfl | rfl | rfl | rfl
      · exact absurd hv (by decide)
      · exact absurd rfl hne
      · exact absurd hv (by decide)
      · exact absurd hv (by decide)
      · refine ⟨by decide, ?_⟩
        intro q hq
        have h4 : groupedForm.parentOf 5 = some 4 := by decide
        have hq' : q = 4 := by
          have : groupedForm.parentOf 5 = some q := hq
          rw [h4] at this
          exact (Option.some.inj this).symm
        subst hq'
        exact ⟨by decide, by decide, by decide⟩)

/-- Counterexample to C3 as stated: after one call on the form whose two empty
required fields share the form element as parent, the children of the form
are the two fields followed by a single error node; the node directly after
the first field is the second field, not an error message. -/
theorem validateForm_shared_parent_one_error :
    (twoFieldForm.descendants.filter isRequired).map (fun e => (e.ref, trim e.value)) =
      [(1, ""), (2, "")] ∧
    (validateTimes 1 twoFieldForm).map (fun out =>
      (out.kidsOf 0).map (fun kids => kids.top.map (fun e => (e.ref, isFieldError e)))) =
        some (some [(1, false), (2, false), (4, true)]) := by
  decide

/-! ## Validation behaviour: the fields that a successful call has checked -/

end MEDashboard
